import Mathlib

/-
Verification development for two BusTub components:
  * src/lru_k_replacer.cpp        (LRU-K replacer)
  * src/container/hash/extendible_hash_table.cpp (extendible hash table)

The C++ code is shallowly embedded: the mutable object state becomes a
structure, each method becomes a function from the state to a pair of an
error flag / result and a post state.  A thrown std::runtime_error is
modelled by the Boolean flag `true` together with the pre-call state,
which is faithful because in the source every throw happens before any
mutation.  Machine integers: `size_t` values are modelled as `Nat`
(no operation sequence considered here reaches 2^64, so wrap-around
never occurs before the modelled behaviour diverges), `frame_id_t`
(a signed 32-bit integer in BusTub) is modelled as `Int`.
-/

namespace BusTub

/-- Value of std::numeric_limits of size_t ::max(), the sentinel the source
uses for an infinite backward k-distance. -/
def INF : Nat := 2 ^ 64 - 1

/-- Per-frame record of the replacer: access-timestamp history (oldest
first), the cached k-distance and the evictable flag, mirroring the
`Frame` struct of the source. -/
structure Frame where
  history : List Nat
  kDistance : Nat
  isEvictable : Bool
deriving DecidableEq

/-- Frame record as default-constructed by `frames_[frame_id]`.
The evictable flag defaults to false (spec section 3); the cached
k-distance default is irrelevant because `RecordAccess` overwrites it
before it is ever read. -/
def Frame.initial : Frame := ⟨[], 0, false⟩

/-- State of the LRU-K replacer, mirroring the member variables of
`LRUKReplacer`: the frame map (modelled as an association list over the
signed frame id), `curr_size_`, `current_timestamp_`, `replacer_size_`
and `k_`. -/
structure LRUKReplacer where
  frames : List (Int × Frame)
  currSize : Nat
  currentTimestamp : Nat
  replacerSize : Nat
  k : Nat
deriving DecidableEq

namespace LRUKReplacer

/-- State produced by the constructor `LRUKReplacer(num_frames, k)`. -/
def init (numFrames k : Nat) : LRUKReplacer := ⟨[], 0, 0, numFrames, k⟩

/-- Lookup in the frame map (`frames_.find`). -/
def lookupFrame (fid : Int) : List (Int × Frame) → Option Frame
  | [] => none
  | p :: rest => if p.1 = fid then some p.2 else lookupFrame fid rest

/-- Store a frame under a key: replace the existing entry in place, or
append a fresh entry (`frames_[frame_id] = ...`). -/
def updateFrames (fid : Int) (fr : Frame) : List (Int × Frame) → List (Int × Frame)
  | [] => [(fid, fr)]
  | p :: rest => if p.1 = fid then (fid, fr) :: rest else p :: updateFrames fid fr rest

/-- Erase the entry of a key (`frames_.erase`). -/
def eraseKey (fid : Int) : List (Int × Frame) → List (Int × Frame)
  | [] => []
  | p :: rest => if p.1 = fid then rest else p :: eraseKey fid rest

/-- Translation of `LRUKReplacer::CalcKDistance`: infinity when the
history holds fewer than `k_` entries, otherwise the current timestamp
minus the history entry at position `k_ - 1` (the element reached by
advancing the begin iterator `k_ - 1` steps). -/
def CalcKDistance (s : LRUKReplacer) (fr : Frame) : Nat :=
  if fr.history.length < s.k then INF
  else s.currentTimestamp - fr.history.getD (s.k - 1) 0

/-- History of a frame after `RecordAccess` pushed the current timestamp
at the back and, when the length now exceeds `k_`, popped the front. -/
def bumpHistory (s : LRUKReplacer) (fr : Frame) : List Nat :=
  if s.k < (fr.history ++ [s.currentTimestamp]).length then
    (fr.history ++ [s.currentTimestamp]).tail
  else fr.history ++ [s.currentTimestamp]

/-- The accessed frame as `RecordAccess` stores it back: updated history
and refreshed cached k-distance (computed by `CalcKDistance` on the new
history, before the timestamp increment). -/
def bumpFrame (s : LRUKReplacer) (frameId : Int) : Frame :=
  let fr := (lookupFrame frameId s.frames).getD Frame.initial
  let fr2 : Frame := { fr with history := bumpHistory s fr }
  { fr2 with kDistance := CalcKDistance s fr2 }

/-- Translation of `LRUKReplacer::RecordAccess`.  The Boolean is the
thrown-exception flag: `true` exactly when `frame_id >= replacer_size_`
(compared after the signed cast), in which case the state is the
untouched pre-call state. -/
def RecordAccess (s : LRUKReplacer) (frameId : Int) : Bool × LRUKReplacer :=
  if (s.replacerSize : Int) ≤ frameId then (true, s)
  else
    (false, { s with frames := updateFrames frameId (bumpFrame s frameId) s.frames,
                     currentTimestamp := s.currentTimestamp + 1 })

/-- Translation of `LRUKReplacer::SetEvictable`.  The Boolean is the
thrown-exception flag. -/
def SetEvictable (s : LRUKReplacer) (frameId : Int) (flag : Bool) : Bool × LRUKReplacer :=
  if (s.replacerSize : Int) ≤ frameId then (true, s)
  else
    match lookupFrame frameId s.frames with
    | none => (false, s)
    | some fr =>
      if fr.isEvictable ≠ flag then
        (false, { s with
                    frames := updateFrames frameId { fr with isEvictable := flag } s.frames,
                    currSize := if flag then s.currSize + 1 else s.currSize - 1 })
      else (false, s)

/-- Translation of `LRUKReplacer::Remove`.  The Boolean is the
thrown-exception flag: `true` exactly when the frame exists and is not
evictable. -/
def Remove (s : LRUKReplacer) (frameId : Int) : Bool × LRUKReplacer :=
  match lookupFrame frameId s.frames with
  | none => (false, s)
  | some fr =>
    if fr.isEvictable = false then (true, s)
    else (false, { s with frames := eraseKey frameId s.frames, currSize := s.currSize - 1 })

/-- Accumulator of the eviction scan in `LRUKReplacer::Evict`:
`victim_id`, `max_k_distance` and `earliest_access`. -/
structure Scan where
  victimId : Int
  maxKd : Nat
  earliest : Nat
deriving DecidableEq

/-- The scan loop of `LRUKReplacer::Evict`, iterating over the frame
map entries in order. -/
def scanVictim (acc : Scan) : List (Int × Frame) → Scan
  | [] => acc
  | (fid, fr) :: rest =>
    if fr.isEvictable = false then scanVictim acc rest
    else if acc.maxKd < fr.kDistance ∨
            (fr.kDistance = acc.maxKd ∧ fr.history ≠ [] ∧ fr.history.headD 0 < acc.earliest) then
      scanVictim ⟨fid, fr.kDistance,
                  if fr.history = [] then acc.earliest else fr.history.headD 0⟩ rest
    else scanVictim acc rest

/-- Translation of `LRUKReplacer::Evict`: `some` of the evicted frame id
(the out-parameter) when the function returns true, `none` when it
returns false; paired with the post state. -/
def Evict (s : LRUKReplacer) : Option Int × LRUKReplacer :=
  if s.currSize = 0 then (none, s)
  else
    let c := scanVictim ⟨-1, 0, s.currentTimestamp⟩ s.frames
    if c.victimId ≠ -1 then
      (some c.victimId,
       { s with frames := eraseKey c.victimId s.frames, currSize := s.currSize - 1 })
    else (none, s)

/-- Translation of `LRUKReplacer::Size`. -/
def Size (s : LRUKReplacer) : Nat := s.currSize

/-- States reachable from a freshly constructed replacer (with the
documented constructor contract `k >= 1`, spec section 4.2) by any
sequence of the public operations. -/
inductive Reachable : LRUKReplacer → Prop
  | init (numFrames k : Nat) (hk : 1 ≤ k) : Reachable (init numFrames k)
  | recordAccess {s} (f : Int) : Reachable s → Reachable (RecordAccess s f).2
  | setEvictable {s} (f : Int) (b : Bool) : Reachable s → Reachable (SetEvictable s f b).2
  | remove {s} (f : Int) : Reachable s → Reachable (Remove s f).2
  | evict {s} : Reachable s → Reachable (Evict s).2

/-- Number of stored frames whose evictable flag is set. -/
def countEv (l : List (Int × Frame)) : Nat :=
  (l.filter fun p => p.2.isEvictable).length

theorem lookupFrame_eq_none {fid : Int} {l : List (Int × Frame)} :
    lookupFrame fid l = none ↔ ∀ p ∈ l, p.1 ≠ fid := by
  induction l with
  | nil => simp [lookupFrame]
  | cons p rest ih =>
    by_cases h : p.1 = fid
    · simp [lookupFrame, h]
    · simp [lookupFrame, h, ih]

theorem lookupFrame_mem {fid : Int} {l : List (Int × Frame)} {fr : Frame}
    (h : lookupFrame fid l = some fr) : (fid, fr) ∈ l := by
  induction l with
  | nil => simp [lookupFrame] at h
  | cons p rest ih =>
    by_cases hp : p.1 = fid
    · simp only [lookupFrame, if_pos hp, Option.some.injEq] at h
      subst h
      rw [← hp]
      simp
    · simp only [lookupFrame, if_neg hp] at h
      exact List.mem_cons_of_mem _ (ih h)

theorem lookupFrame_updateFrames_self (fid : Int) (fr : Frame) (l : List (Int × Frame)) :
    lookupFrame fid (updateFrames fid fr l) = some fr := by
  induction l with
  | nil => simp [updateFrames, lookupFrame]
  | cons p rest ih =>
    by_cases hp : p.1 = fid
    · simp [updateFrames, hp, lookupFrame]
    · simp [updateFrames, hp, lookupFrame, ih]

theorem updateFrames_of_none {fid : Int} {l : List (Int × Frame)} (fr : Frame)
    (h : lookupFrame fid l = none) : updateFrames fid fr l = l ++ [(fid, fr)] := by
  induction l with
  | nil => simp [updateFrames]
  | cons p rest ih =>
    by_cases hp : p.1 = fid
    · simp [lookupFrame, hp] at h
    · simp [lookupFrame, hp] at h
      simp [updateFrames, hp, ih h]

theorem eraseKey_of_none {fid : Int} {l : List (Int × Frame)}
    (h : lookupFrame fid l = none) : eraseKey fid l = l := by
  induction l with
  | nil => simp [eraseKey]
  | cons p rest ih =>
    by_cases hp : p.1 = fid
    · simp [lookupFrame, hp] at h
    · simp [lookupFrame, hp] at h
      simp [eraseKey, hp, ih h]

theorem mem_updateFrames {g : Int} {gr : Frame} {fid : Int} {fr : Frame}
    {l : List (Int × Frame)} (h : (g, gr) ∈ updateFrames fid fr l) :
    (g = fid ∧ gr = fr) ∨ (g, gr) ∈ l := by
  induction l with
  | nil =>
    simp [updateFrames] at h
    exact Or.inl ⟨h.1, h.2⟩
  | cons p rest ih =>
    by_cases hp : p.1 = fid
    · simp only [updateFrames, if_pos hp] at h
      rcases List.mem_cons.1 h with h1 | h1
      · exact Or.inl ⟨congrArg Prod.fst h1, congrArg Prod.snd h1⟩
      · exact Or.inr (List.mem_cons_of_mem _ h1)
    · simp only [updateFrames, if_neg hp] at h
      rcases List.mem_cons.1 h with h1 | h1
      · exact Or.inr (List.mem_cons.2 (Or.inl h1))
      · rcases ih h1 with h2 | h2
        · exact Or.inl h2
        · exact Or.inr (List.mem_cons_of_mem _ h2)

theorem mem_eraseKey {g : Int} {gr : Frame} {fid : Int} {l : List (Int × Frame)}
    (h : (g, gr) ∈ eraseKey fid l) : (g, gr) ∈ l := by
  induction l with
  | nil => simp [eraseKey] at h
  | cons p rest ih =>
    by_cases hp : p.1 = fid
    · simp only [eraseKey, if_pos hp] at h
      exact List.mem_cons_of_mem _ h
    · simp only [eraseKey, if_neg hp] at h
      rcases List.mem_cons.1 h with h1 | h1
      · exact List.mem_cons.2 (Or.inl h1)
      · exact List.mem_cons_of_mem _ (ih h1)

theorem map_fst_updateFrames_of_some {fid : Int} {l : List (Int × Frame)} {old : Frame}
    (h : lookupFrame fid l = some old) (fr : Frame) :
    (updateFrames fid fr l).map Prod.fst = l.map Prod.fst := by
  induction l with
  | nil => simp [lookupFrame] at h
  | cons p rest ih =>
    by_cases hp : p.1 = fid
    · simp [updateFrames, hp]
    · simp [lookupFrame, hp] at h
      simp [updateFrames, hp, ih h]

theorem nodup_updateFrames {fid : Int} {l : List (Int × Frame)} (fr : Frame)
    (h : (l.map Prod.fst).Nodup) : ((updateFrames fid fr l).map Prod.fst).Nodup := by
  cases hl : lookupFrame fid l with
  | none =>
    rw [updateFrames_of_none fr hl]
    simp only [List.map_append, List.nodup_append]
    refine ⟨h, by simp, ?_⟩
    intro a ha
    simp only [List.map_cons, List.map_nil, List.mem_singleton]
    intro hb
    subst hb
    rcases List.mem_map.1 ha with ⟨p, hp, hpa⟩
    exact (lookupFrame_eq_none.1 hl p hp) hpa
  | some old => rw [map_fst_updateFrames_of_some hl fr]; exact h

theorem nodup_eraseKey {fid : Int} {l : List (Int × Frame)}
    (h : (l.map Prod.fst).Nodup) : ((eraseKey fid l).map Prod.fst).Nodup := by
  induction l with
  | nil => simp [eraseKey]
  | cons p rest ih =>
    simp only [List.map_cons, List.nodup_cons] at h
    by_cases hp : p.1 = fid
    · simp only [eraseKey, if_pos hp]
      exact h.2
    · simp only [eraseKey, if_neg hp, List.map_cons, List.nodup_cons]
      refine ⟨fun hc => h.1 ?_, ih h.2⟩
      rcases List.mem_map.1 hc with ⟨q, hq, hqa⟩
      exact List.mem_map.2 ⟨q, mem_eraseKey hq, hqa⟩

theorem lookupFrame_of_mem_nodup {fid : Int} {fr : Frame} {l : List (Int × Frame)}
    (hn : (l.map Prod.fst).Nodup) (h : (fid, fr) ∈ l) : lookupFrame fid l = some fr := by
  induction l with
  | nil => simp at h
  | cons p rest ih =>
    simp only [List.map_cons, List.nodup_cons] at hn
    rcases List.mem_cons.1 h with h1 | h1
    · simp [lookupFrame, ← h1]
    · by_cases hp : p.1 = fid
      · exfalso
        exact hn.1 (List.mem_map.2 ⟨(fid, fr), h1, by simp [hp]⟩)
      · simp [lookupFrame, hp]
        exact ih hn.2 h1

theorem countEv_append (l : List (Int × Frame)) (x : Int × Frame) :
    countEv (l ++ [x]) = countEv l + if x.2.isEvictable then 1 else 0 := by
  simp only [countEv, List.filter_append, List.length_append]
  by_cases hx : x.2.isEvictable <;> simp [hx]

theorem countEv_update_some {fid : Int} {l : List (Int × Frame)} {old : Frame}
    (h : lookupFrame fid l = some old) (fr : Frame) :
    countEv (updateFrames fid fr l) + (if old.isEvictable then 1 else 0) =
      countEv l + (if fr.isEvictable then 1 else 0) := by
  induction l with
  | nil => simp [lookupFrame] at h
  | cons p rest ih =>
    by_cases hp : p.1 = fid
    · simp only [lookupFrame, if_pos hp, Option.some.injEq] at h
      subst h
      simp only [updateFrames, if_pos hp, countEv, List.filter_cons]
      by_cases hf : fr.isEvictable <;> by_cases ho : p.2.isEvictable <;>
        simp [hf, ho] <;> omega
    · simp only [lookupFrame, if_neg hp] at h
      have hih := ih h
      simp only [updateFrames, if_neg hp, countEv, List.filter_cons] at hih ⊢
      by_cases ho : old.isEvictable <;> by_cases hf : fr.isEvictable <;>
        by_cases hpe : p.2.isEvictable <;> simp [ho, hf, hpe] at hih ⊢ <;> omega

theorem countEv_erase_some {fid : Int} {l : List (Int × Frame)} {old : Frame}
    (h : lookupFrame fid l = some old) :
    countEv (eraseKey fid l) + (if old.isEvictable then 1 else 0) = countEv l := by
  induction l with
  | nil => simp [lookupFrame] at h
  | cons p rest ih =>
    by_cases hp : p.1 = fid
    · simp only [lookupFrame, if_pos hp, Option.some.injEq] at h
      subst h
      simp only [eraseKey, if_pos hp, countEv, List.filter_cons]
      by_cases ho : p.2.isEvictable <;> simp [ho]
    · simp only [lookupFrame, if_neg hp] at h
      have hih := ih h
      simp only [eraseKey, if_neg hp, countEv, List.filter_cons] at hih ⊢
      by_cases ho : old.isEvictable <;>
        by_cases hpe : p.2.isEvictable <;> simp [ho, hpe] at hih ⊢ <;> omega

theorem countEv_pos {fid : Int} {fr : Frame} {l : List (Int × Frame)}
    (h : (fid, fr) ∈ l) (he : fr.isEvictable = true) : 1 ≤ countEv l := by
  have : (fid, fr) ∈ l.filter fun p => p.2.isEvictable :=
    List.mem_filter.2 ⟨h, by simp [he]⟩
  have hlen := List.length_pos.2 (List.ne_nil_of_mem this)
  simpa [countEv] using hlen

theorem append_getD_length (l : List Nat) (a : Nat) : (l ++ [a]).getD l.length 0 = a := by
  induction l with
  | nil => rfl
  | cons x xs ih => simpa using ih

/-- Invariants holding in every reachable replacer state. -/
structure WF (s : LRUKReplacer) : Prop where
  hk : 1 ≤ s.k
  nodup : (s.frames.map Prod.fst).Nodup
  sizeEq : s.currSize = countEv s.frames
  histNe : ∀ p ∈ s.frames, p.2.history ≠ []
  histLen : ∀ p ∈ s.frames, p.2.history.length ≤ s.k
  histLt : ∀ p ∈ s.frames, ∀ t ∈ p.2.history, t < s.currentTimestamp
  disj : ∀ p ∈ s.frames, ∀ q ∈ s.frames, p.1 ≠ q.1 → ∀ t ∈ p.2.history, t ∉ q.2.history
  kdCached : ∀ p ∈ s.frames, p.2.kDistance = if p.2.history.length < s.k then INF else 0

theorem bumpHistory_spec {s : LRUKReplacer} {fr : Frame} (hk : 1 ≤ s.k)
    (hlen : fr.history.length ≤ s.k) :
    ∃ l', bumpHistory s fr = l' ++ [s.currentTimestamp] ∧
      (∀ t ∈ l', t ∈ fr.history) ∧
      (bumpHistory s fr).length = min (fr.history.length + 1) s.k := by
  unfold bumpHistory
  by_cases hpop : s.k < (fr.history ++ [s.currentTimestamp]).length
  · have hlen2 : fr.history.length = s.k := by
      simp only [List.length_append, List.length_cons, List.length_nil] at hpop
      omega
    rw [if_pos hpop]
    rcases hx : fr.history with _ | ⟨x, xs⟩
    · exfalso
      rw [hx] at hlen2
      simp at hlen2
      omega
    · have hxs : xs.length + 1 = s.k := by rw [hx] at hlen2; simpa using hlen2
      refine ⟨xs, by simp, fun t ht => by simp [ht], ?_⟩
      simp only [List.cons_append, List.tail_cons, List.length_append, List.length_cons,
        List.length_nil]
      omega
  · rw [if_neg hpop]
    refine ⟨fr.history, rfl, fun t ht => ht, ?_⟩
    simp only [List.length_append, List.length_cons, List.length_nil]
    simp only [List.length_append, List.length_cons, List.length_nil] at hpop
    omega

theorem bumpHistory_ne {s : LRUKReplacer} {fr : Frame} (hk : 1 ≤ s.k)
    (hlen : fr.history.length ≤ s.k) : bumpHistory s fr ≠ [] := by
  rcases bumpHistory_spec hk hlen with ⟨l', heq, -, -⟩
  simp [heq]

theorem bumpHistory_len {s : LRUKReplacer} {fr : Frame} (hk : 1 ≤ s.k)
    (hlen : fr.history.length ≤ s.k) : (bumpHistory s fr).length ≤ s.k := by
  rcases bumpHistory_spec hk hlen with ⟨l', -, -, hl⟩
  omega

theorem bumpHistory_mem {s : LRUKReplacer} {fr : Frame} (hk : 1 ≤ s.k)
    (hlen : fr.history.length ≤ s.k) {t : Nat} (ht : t ∈ bumpHistory s fr) :
    t ∈ fr.history ∨ t = s.currentTimestamp := by
  rcases bumpHistory_spec hk hlen with ⟨l', heq, hsub, -⟩
  rw [heq] at ht
  rcases List.mem_append.1 ht with h1 | h1
  · exact Or.inl (hsub t h1)
  · simp at h1; exact Or.inr h1

theorem bumpFrame_history {s : LRUKReplacer} {frameId : Int} :
    (bumpFrame s frameId).history =
      bumpHistory s ((lookupFrame frameId s.frames).getD Frame.initial) := rfl

theorem bumpFrame_isEvictable {s : LRUKReplacer} {frameId : Int} :
    (bumpFrame s frameId).isEvictable =
      ((lookupFrame frameId s.frames).getD Frame.initial).isEvictable := rfl

theorem bumpFrame_kd {s : LRUKReplacer} {frameId : Int} (hk : 1 ≤ s.k)
    (hlen : ((lookupFrame frameId s.frames).getD Frame.initial).history.length ≤ s.k) :
    (bumpFrame s frameId).kDistance =
      if (bumpFrame s frameId).history.length < s.k then INF else 0 := by
  rcases bumpHistory_spec hk hlen with ⟨l', heq, -, hl⟩
  by_cases hcase : (bumpHistory s ((lookupFrame frameId s.frames).getD Frame.initial)).length < s.k
  · simp only [bumpFrame, CalcKDistance]
    simp [bumpFrame_history, hcase]
  · have hfull : (bumpHistory s ((lookupFrame frameId s.frames).getD Frame.initial)).length
        = s.k := by omega
    have hl' : l'.length = s.k - 1 := by
      rw [heq] at hfull
      simp at hfull
      omega
    have hget : (bumpHistory s ((lookupFrame frameId s.frames).getD Frame.initial)).getD
        (s.k - 1) 0 = s.currentTimestamp := by
      rw [heq, ← hl']
      exact append_getD_length l' s.currentTimestamp
    have hbf : (bumpFrame s frameId).kDistance = s.currentTimestamp -
        (bumpHistory s ((lookupFrame frameId s.frames).getD Frame.initial)).getD
          (s.k - 1) 0 := by
      simp only [bumpFrame, CalcKDistance]
      rw [if_neg hcase]
    rw [hbf, hget, Nat.sub_self, bumpFrame_history, if_neg hcase]

theorem wf_init (numFrames k : Nat) (hk : 1 ≤ k) : WF (init numFrames k) := by
  constructor <;> simp [init, countEv, hk]

theorem wf_recordAccess {s : LRUKReplacer} (w : WF s) (f : Int) :
    WF (RecordAccess s f).2 := by
  unfold RecordAccess
  by_cases hthrow : (s.replacerSize : Int) ≤ f
  · simpa [hthrow] using w
  · simp only [if_neg hthrow]
    have hlen0 : ((lookupFrame f s.frames).getD Frame.initial).history.length ≤ s.k := by
      rcases hl : lookupFrame f s.frames with _ | fr
      · simp [Frame.initial]
      · simpa using w.histLen _ (lookupFrame_mem hl)
    have hmemh : ∀ t ∈ (bumpFrame s f).history,
        t ∈ ((lookupFrame f s.frames).getD Frame.initial).history ∨ t = s.currentTimestamp := by
      intro t ht
      exact bumpHistory_mem w.hk hlen0 (by simpa [bumpFrame_history] using ht)
    have holdmem : ∀ t ∈ ((lookupFrame f s.frames).getD Frame.initial).history,
        t < s.currentTimestamp := by
      rcases hl : lookupFrame f s.frames with _ | fr
      · simp [Frame.initial]
      · simpa using w.histLt _ (lookupFrame_mem hl)
    refine ⟨w.hk, ?_, ?_, ?_, ?_, ?_, ?_, ?_⟩
    · exact nodup_updateFrames _ w.nodup
    · rcases hl : lookupFrame f s.frames with _ | fr
      · rw [updateFrames_of_none _ hl, countEv_append]
        have hfe : (bumpFrame s f).isEvictable = false := by
          rw [bumpFrame_isEvictable, hl]; rfl
        simp [hfe, w.sizeEq]
      · have hcnt := countEv_update_some hl (bumpFrame s f)
        have hsame : (bumpFrame s f).isEvictable = fr.isEvictable := by
          rw [bumpFrame_isEvictable, hl]
          rfl
        rw [hsame] at hcnt
        simp only [w.sizeEq]
        by_cases hfe : fr.isEvictable = true <;> simp [hfe] at hcnt <;> omega
    · intro p hp
      rcases mem_updateFrames hp with ⟨-, h2⟩ | h2
      · rw [h2, bumpFrame_history]
        exact bumpHistory_ne w.hk hlen0
      · exact w.histNe p h2
    · intro p hp
      rcases mem_updateFrames hp with ⟨-, h2⟩ | h2
      · rw [h2, bumpFrame_history]
        exact bumpHistory_len w.hk hlen0
      · exact w.histLen p h2
    · intro p hp t ht
      show t < s.currentTimestamp + 1
      rcases mem_updateFrames hp with ⟨-, h2⟩ | h2
      · rw [h2] at ht
        rcases hmemh t ht with hcase | hcase
        · exact Nat.lt_succ_of_lt (holdmem t hcase)
        · omega
      · exact Nat.lt_succ_of_lt (w.histLt p h2 t ht)
    · intro p hp q hq hne t ht
      rcases mem_updateFrames hp with ⟨hp1, hp2⟩ | hp2 <;>
        rcases mem_updateFrames hq with ⟨hq1, hq2⟩ | hq2
      · exact absurd (hp1.trans hq1.symm) hne
      · rw [hp2] at ht
        rcases hmemh t ht with hcase | hcase
        · rcases hl : lookupFrame f s.frames with _ | fr
          · rw [hl] at hcase; simp [Frame.initial] at hcase
          · rw [hl] at hcase
            have hfmem := lookupFrame_mem hl
            exact w.disj (f, fr) hfmem q hq2 (hp1 ▸ hne) t (by simpa using hcase)
        · intro hmem
          exact absurd (w.histLt q hq2 t hmem) (by omega)
      · intro hmem
        rw [hq2] at hmem
        rcases hmemh t hmem with hcase | hcase
        · rcases hl : lookupFrame f s.frames with _ | fr
          · rw [hl] at hcase; simp [Frame.initial] at hcase
          · rw [hl] at hcase
            have hfmem := lookupFrame_mem hl
            exact w.disj p hp2 (f, fr) hfmem (hq1 ▸ hne) t ht (by simpa using hcase)
        · have hlt := w.histLt p hp2 t ht
          omega
      · exact w.disj p hp2 q hq2 hne t ht
    · intro p hp
      rcases mem_updateFrames hp with ⟨-, h2⟩ | h2
      · rw [h2]
        exact bumpFrame_kd w.hk hlen0
      · exact w.kdCached p h2

theorem wf_setEvictable {s : LRUKReplacer} (w : WF s) (f : Int) (b : Bool) :
    WF (SetEvictable s f b).2 := by
  unfold SetEvictable
  by_cases hthrow : (s.replacerSize : Int) ≤ f
  · simpa [hthrow] using w
  · simp only [if_neg hthrow]
    rcases hl : lookupFrame f s.frames with _ | fr
    · exact w
    · by_cases hflag : fr.isEvictable ≠ b
      · simp only [if_pos hflag]
        have hmem := lookupFrame_mem hl
        refine ⟨w.hk, nodup_updateFrames _ w.nodup, ?_, ?_, ?_, ?_, ?_, ?_⟩
        · have hcnt := countEv_update_some hl { fr with isEvictable := b }
          rcases b with _ | _
          · have hf : fr.isEvictable = true := by
              rcases hfr : fr.isEvictable with _ | _
              · exact absurd hfr (by simpa [hfr] using hflag)
              · rfl
            have hpos := countEv_pos hmem hf
            simp [hf] at hcnt
            show s.currSize - 1 =
              countEv (updateFrames f { fr with isEvictable := false } s.frames)
            rw [w.sizeEq]
            omega
          · have hf : fr.isEvictable = false := by
              rcases hfr : fr.isEvictable with _ | _
              · rfl
              · exact absurd hfr (by simpa [hfr] using hflag)
            simp [hf] at hcnt
            show s.currSize + 1 =
              countEv (updateFrames f { fr with isEvictable := true } s.frames)
            rw [w.sizeEq]
            omega
        · intro p hp
          rcases mem_updateFrames hp with ⟨-, h2⟩ | h2
          · rw [h2]; exact w.histNe _ hmem
          · exact w.histNe p h2
        · intro p hp
          rcases mem_updateFrames hp with ⟨-, h2⟩ | h2
          · rw [h2]; exact w.histLen _ hmem
          · exact w.histLen p h2
        · intro p hp t ht
          rcases mem_updateFrames hp with ⟨-, h2⟩ | h2
          · rw [h2] at ht; exact w.histLt _ hmem t ht
          · exact w.histLt p h2 t ht
        · intro p hp q hq hne t ht
          rcases mem_updateFrames hp with ⟨hp1, hp2⟩ | hp2 <;>
            rcases mem_updateFrames hq with ⟨hq1, hq2⟩ | hq2
          · exact absurd (hp1.trans hq1.symm) hne
          · rw [hp2] at ht
            exact w.disj (f, fr) hmem q hq2 (hp1 ▸ hne) t ht
          · intro hc
            rw [hq2] at hc
            exact w.disj p hp2 (f, fr) hmem (hq1 ▸ hne) t ht hc
          · exact w.disj p hp2 q hq2 hne t ht
        · intro p hp
          rcases mem_updateFrames hp with ⟨-, h2⟩ | h2
          · rw [h2]; exact w.kdCached _ hmem
          · exact w.kdCached p h2
      · simp only [if_neg hflag]
        exact w

theorem wf_remove {s : LRUKReplacer} (w : WF s) (f : Int) : WF (Remove s f).2 := by
  unfold Remove
  rcases hl : lookupFrame f s.frames with _ | fr
  · exact w
  · by_cases hfr : fr.isEvictable = false
    · simp only [if_pos hfr]
      exact w
    · simp only [if_neg hfr]
      have hmem := lookupFrame_mem hl
      have hf : fr.isEvictable = true := by
        rcases hfr2 : fr.isEvictable with _ | _
        · exact absurd hfr2 hfr
        · rfl
      refine ⟨w.hk, nodup_eraseKey w.nodup, ?_, ?_, ?_, ?_, ?_, ?_⟩
      · have hcnt := countEv_erase_some hl
        simp only [hf, if_true] at hcnt
        simp only [w.sizeEq]
        omega
      · exact fun p hp => w.histNe p (mem_eraseKey hp)
      · exact fun p hp => w.histLen p (mem_eraseKey hp)
      · exact fun p hp => w.histLt p (mem_eraseKey hp)
      · exact fun p hp q hq hne => w.disj p (mem_eraseKey hp) q (mem_eraseKey hq) hne
      · exact fun p hp => w.kdCached p (mem_eraseKey hp)

theorem scanVictim_mem (l : List (Int × Frame)) (acc : Scan) :
    (scanVictim acc l).victimId = acc.victimId ∨
      ∃ fr, ((scanVictim acc l).victimId, fr) ∈ l ∧ fr.isEvictable = true := by
  induction l generalizing acc with
  | nil => exact Or.inl rfl
  | cons p rest ih =>
    rcases p with ⟨fid, fr⟩
    by_cases hev : fr.isEvictable = false
    · simp only [scanVictim, if_pos hev]
      rcases ih acc with h1 | ⟨g, hg1, hg2⟩
      · exact Or.inl h1
      · exact Or.inr ⟨g, List.mem_cons_of_mem _ hg1, hg2⟩
    · have hev2 : fr.isEvictable = true := by
        rcases hfr : fr.isEvictable with _ | _
        · exact absurd hfr hev
        · rfl
      simp only [scanVictim, if_neg hev]
      by_cases hcond : acc.maxKd < fr.kDistance ∨
          (fr.kDistance = acc.maxKd ∧ fr.history ≠ [] ∧ fr.history.headD 0 < acc.earliest)
      · simp only [if_pos hcond]
        rcases ih ⟨fid, fr.kDistance,
            if fr.history = [] then acc.earliest else fr.history.headD 0⟩ with h1 | ⟨g, hg1, hg2⟩
        · rw [h1]
          exact Or.inr ⟨fr, List.mem_cons_self _ _, hev2⟩
        · exact Or.inr ⟨g, List.mem_cons_of_mem _ hg1, hg2⟩
      · simp only [if_neg hcond]
        rcases ih acc with h1 | ⟨g, hg1, hg2⟩
        · exact Or.inl h1
        · exact Or.inr ⟨g, List.mem_cons_of_mem _ hg1, hg2⟩

theorem wf_evict {s : LRUKReplacer} (w : WF s) : WF (Evict s).2 := by
  unfold Evict
  by_cases hz : s.currSize = 0
  · simpa [hz] using w
  · simp only [if_neg hz]
    by_cases hv : (scanVictim ⟨-1, 0, s.currentTimestamp⟩ s.frames).victimId ≠ -1
    · simp only [if_pos hv]
      rcases scanVictim_mem s.frames ⟨-1, 0, s.currentTimestamp⟩ with h1 | ⟨fr, hm, hev⟩
      · exact absurd h1 hv
      · have hlk := lookupFrame_of_mem_nodup w.nodup hm
        refine ⟨w.hk, nodup_eraseKey w.nodup, ?_, ?_, ?_, ?_, ?_, ?_⟩
        · have hcnt := countEv_erase_some hlk
          simp only [hev, if_true] at hcnt
          simp only [w.sizeEq]
          omega
        · exact fun p hp => w.histNe p (mem_eraseKey hp)
        · exact fun p hp => w.histLen p (mem_eraseKey hp)
        · exact fun p hp => w.histLt p (mem_eraseKey hp)
        · exact fun p hp q hq hne => w.disj p (mem_eraseKey hp) q (mem_eraseKey hq) hne
        · exact fun p hp => w.kdCached p (mem_eraseKey hp)
    · simp only [if_neg hv]
      exact w

theorem reach_wf {s : LRUKReplacer} (h : Reachable s) : WF s := by
  induction h with
  | init n k hk => exact wf_init n k hk
  | recordAccess f _ ih => exact wf_recordAccess ih f
  | setEvictable f b _ ih => exact wf_setEvictable ih f b
  | remove f _ ih => exact wf_remove ih f
  | evict _ ih => exact wf_evict ih

/-- Characterization of the scan accumulator after processing the
entries of `seen`: either no evictable frame was seen and the
accumulator still holds the initial sentinel values, or it records an
evictable seen frame beating every evictable seen frame in the order
"larger cached k-distance first, then smaller oldest history entry". -/
def AccOK (ts : Nat) (seen : List (Int × Frame)) (acc : Scan) : Prop :=
  (acc = ⟨-1, 0, ts⟩ ∧ ∀ q ∈ seen, q.2.isEvictable = false) ∨
  (∃ fr, (acc.victimId, fr) ∈ seen ∧ fr.isEvictable = true ∧
    acc.maxKd = fr.kDistance ∧ acc.earliest = fr.history.headD 0 ∧
    ∀ q ∈ seen, q.2.isEvictable = true →
      q.2.kDistance < fr.kDistance ∨
        (q.2.kDistance = fr.kDistance ∧ fr.history.headD 0 ≤ q.2.history.headD 0))

theorem scanVictim_go (ts : Nat) :
    ∀ (l seen : List (Int × Frame)) (acc : Scan),
      AccOK ts seen acc →
      (∀ p ∈ l, p.2.history ≠ []) →
      (∀ p ∈ l, p.2.history.headD 0 < ts) →
      AccOK ts (seen ++ l) (scanVictim acc l) := by
  intro l
  induction l with
  | nil =>
    intro seen acc hacc _ _
    simpa [scanVictim] using hacc
  | cons p rest ih =>
    intro seen acc hacc hne hlt
    rcases p with ⟨fid, fr⟩
    have hne0 : fr.history ≠ [] := hne (fid, fr) (List.mem_cons_self _ _)
    have hlt0 : fr.history.headD 0 < ts := hlt (fid, fr) (List.mem_cons_self _ _)
    have hne' : ∀ p ∈ rest, p.2.history ≠ [] := fun p hp => hne p (List.mem_cons_of_mem _ hp)
    have hlt' : ∀ p ∈ rest, p.2.history.headD 0 < ts :=
      fun p hp => hlt p (List.mem_cons_of_mem _ hp)
    have hseen : seen ++ (fid, fr) :: rest = (seen ++ [(fid, fr)]) ++ rest := by simp
    rw [hseen]
    by_cases hev : fr.isEvictable = false
    · rw [show scanVictim acc ((fid, fr) :: rest) = scanVictim acc rest from by
        simp only [scanVictim]; rw [if_pos hev]]
      refine ih (seen ++ [(fid, fr)]) acc ?_ hne' hlt'
      rcases hacc with ⟨h1, h2⟩ | ⟨g, hg1, hg2, hg3, hg4, hg5⟩
      · refine Or.inl ⟨h1, fun q hq => ?_⟩
        rcases List.mem_append.1 hq with hq2 | hq2
        · exact h2 q hq2
        · simp at hq2
          rw [hq2]
          exact hev
      · refine Or.inr ⟨g, List.mem_append_left _ hg1, hg2, hg3, hg4, fun q hq hqe => ?_⟩
        rcases List.mem_append.1 hq with hq2 | hq2
        · exact hg5 q hq2 hqe
        · simp at hq2
          rw [hq2] at hqe
          exact absurd hqe (by simp [hev])
    · have hev2 : fr.isEvictable = true := by
        rcases hfr : fr.isEvictable with _ | _
        · exact absurd hfr hev
        · rfl
      by_cases hcond : acc.maxKd < fr.kDistance ∨
          (fr.kDistance = acc.maxKd ∧ fr.history ≠ [] ∧ fr.history.headD 0 < acc.earliest)
      · rw [show scanVictim acc ((fid, fr) :: rest) =
            scanVictim ⟨fid, fr.kDistance,
              if fr.history = [] then acc.earliest else fr.history.headD 0⟩ rest from by
          simp only [scanVictim]; rw [if_neg hev, if_pos hcond]]
        rw [if_neg hne0]
        refine ih (seen ++ [(fid, fr)]) _ ?_ hne' hlt'
        refine Or.inr ⟨fr, ?_, hev2, rfl, rfl, ?_⟩
        · exact List.mem_append_right _ (List.mem_singleton.2 rfl)
        · intro q hq hqe
          rcases List.mem_append.1 hq with hq2 | hq2
          · rcases hacc with ⟨h1, h2⟩ | ⟨g, hg1, hg2, hg3, hg4, hg5⟩
            · exact absurd hqe (by simp [h2 q hq2])
            · rcases hg5 q hq2 hqe with hc | ⟨hc1, hc2⟩
              · rcases hcond with hd | ⟨hd1, -, -⟩
                · exact Or.inl (by omega)
                · exact Or.inl (by omega)
              · rcases hcond with hd | ⟨hd1, -, hd3⟩
                · exact Or.inl (by omega)
                · refine Or.inr ⟨by omega, ?_⟩
                  rw [hg4] at hd3
                  exact le_of_lt (lt_of_lt_of_le hd3 hc2)
          · simp only [List.mem_singleton] at hq2
            subst hq2
            exact Or.inr ⟨rfl, le_refl _⟩
      · rw [show scanVictim acc ((fid, fr) :: rest) = scanVictim acc rest from by
          simp only [scanVictim]; rw [if_neg hev, if_neg hcond]]
        refine ih (seen ++ [(fid, fr)]) acc ?_ hne' hlt'
        rcases hacc with ⟨h1, h2⟩ | ⟨g, hg1, hg2, hg3, hg4, hg5⟩
        · exfalso
          apply hcond
          rw [h1]
          show (0 : Nat) < fr.kDistance ∨
            (fr.kDistance = (0 : Nat) ∧ fr.history ≠ [] ∧ fr.history.headD 0 < ts)
          by_cases hkd : 0 < fr.kDistance
          · exact Or.inl hkd
          · exact Or.inr ⟨by omega, hne0, hlt0⟩
        · refine Or.inr ⟨g, List.mem_append_left _ hg1, hg2, hg3, hg4, fun q hq hqe => ?_⟩
          rcases List.mem_append.1 hq with hq2 | hq2
          · exact hg5 q hq2 hqe
          · simp only [List.mem_singleton] at hq2
            simp only [hq2]
            rw [not_or, not_lt] at hcond
            rcases hcond with ⟨hc1, hc2⟩
            rcases lt_or_eq_of_le hc1 with hc3 | hc3
            · exact Or.inl (by omega)
            · rw [not_and, not_and] at hc2
              have hge := hc2 hc3 hne0
              rw [not_lt, hg4] at hge
              exact Or.inr ⟨by omega, hge⟩

/-- Backward k-distance at the current time, as the specification
defines it: infinite when fewer than `k` accesses are retained in the
history, otherwise the current timestamp minus the k-th most recent
access, which for the capped oldest-first history is its front. -/
def backwardKDist (k ts : Nat) (fr : Frame) : WithTop Nat :=
  if fr.history.length < k then ⊤ else ((ts - fr.history.headD 0 : Nat) : WithTop Nat)

theorem INF_ne_zero : INF ≠ 0 := by
  simp [INF]

theorem kd_dominance_to_dist {k ts : Nat} {fr q : Frame}
    (hfr : fr.kDistance = if fr.history.length < k then INF else 0)
    (hq : q.kDistance = if q.history.length < k then INF else 0)
    (hdom : q.kDistance < fr.kDistance ∨
      (q.kDistance = fr.kDistance ∧ fr.history.headD 0 ≤ q.history.headD 0)) :
    backwardKDist k ts q ≤ backwardKDist k ts fr ∧
      (backwardKDist k ts q = backwardKDist k ts fr →
        fr.history.headD 0 ≤ q.history.headD 0) := by
  by_cases hfc : fr.history.length < k
  · rw [if_pos hfc] at hfr
    constructor
    · simp [backwardKDist, if_pos hfc]
    · intro heq
      by_cases hqc : q.history.length < k
      · rw [if_pos hqc] at hq
        rcases hdom with hd | ⟨-, hd2⟩
        · rw [hfr, hq] at hd
          exact absurd hd (lt_irrefl _)
        · exact hd2
      · exfalso
        rw [backwardKDist, backwardKDist, if_neg hqc, if_pos hfc] at heq
        exact (WithTop.coe_ne_top) heq
  · rw [if_neg hfc] at hfr
    by_cases hqc : q.history.length < k
    · exfalso
      rw [if_pos hqc] at hq
      rcases hdom with hd | ⟨hd1, -⟩
      · rw [hfr, hq] at hd
        exact absurd hd (by omega)
      · rw [hfr, hq] at hd1
        exact INF_ne_zero hd1
    · rw [if_neg hqc] at hq
      have hfront : fr.history.headD 0 ≤ q.history.headD 0 := by
        rcases hdom with hd | ⟨-, hd2⟩
        · rw [hfr, hq] at hd
          exact absurd hd (lt_irrefl _)
        · exact hd2
      constructor
      · rw [backwardKDist, backwardKDist, if_neg hqc, if_neg hfc]
        exact WithTop.coe_le_coe.2 (Nat.sub_le_sub_left hfront ts)
      · intro _
        exact hfront

theorem headD_mem {l : List Nat} (h : l ≠ []) : l.headD 0 ∈ l := by
  rcases l with _ | ⟨x, xs⟩
  · exact absurd rfl h
  · simp

theorem exists_evictable_of_countEv_pos {l : List (Int × Frame)} (h : 0 < countEv l) :
    ∃ p ∈ l, p.2.isEvictable = true := by
  rcases hf : l.filter fun p => p.2.isEvictable with _ | ⟨p, rest⟩
  · rw [countEv, hf] at h
    simp at h
  · have hp : p ∈ l.filter fun p => p.2.isEvictable := by rw [hf]; simp
    rcases List.mem_filter.1 hp with ⟨h1, h2⟩
    exact ⟨p, h1, by simpa using h2⟩

theorem Evict_none_of_zero {s : LRUKReplacer} (hz : s.currSize = 0) : Evict s = (none, s) := by
  simp [Evict, hz]

theorem Evict_neg {s : LRUKReplacer} (hz : ¬s.currSize = 0)
    (hv : (scanVictim ⟨-1, 0, s.currentTimestamp⟩ s.frames).victimId = -1) :
    Evict s = (none, s) := by
  simp [Evict, hz, hv]

theorem Evict_pos {s : LRUKReplacer} (hz : ¬s.currSize = 0)
    (hv : ¬(scanVictim ⟨-1, 0, s.currentTimestamp⟩ s.frames).victimId = -1) :
    Evict s = (some (scanVictim ⟨-1, 0, s.currentTimestamp⟩ s.frames).victimId,
      { s with
          frames := eraseKey (scanVictim ⟨-1, 0, s.currentTimestamp⟩ s.frames).victimId s.frames,
          currSize := s.currSize - 1 }) := by
  simp [Evict, hz, hv]

theorem accOK_of_wf {s : LRUKReplacer} (w : WF s) :
    AccOK s.currentTimestamp s.frames (scanVictim ⟨-1, 0, s.currentTimestamp⟩ s.frames) := by
  have h := scanVictim_go s.currentTimestamp s.frames [] ⟨-1, 0, s.currentTimestamp⟩
    (Or.inl ⟨rfl, by simp⟩) w.histNe
    (fun p hp => w.histLt p hp _ (headD_mem (w.histNe p hp)))
  simpa using h

/-- Scenario state of claim C1 (spec scenario S5): a replacer with
`num_frames = 7`, `k = 2`, single accesses to frames 1, 2, 3, 4 and all
four set evictable. -/
def c1s0 : LRUKReplacer := init 7 2

/-- Scenario state after the four accesses and four `SetEvictable` calls. -/
def c1s1 : LRUKReplacer := (SetEvictable (SetEvictable (SetEvictable (SetEvictable
  (RecordAccess (RecordAccess (RecordAccess (RecordAccess c1s0 1).2 2).2 3).2 4).2
  1 true).2 2 true).2 3 true).2 4 true).2

/-- Scenario state after the first eviction. -/
def c1s2 : LRUKReplacer := (Evict c1s1).2

/-- Scenario state after the second eviction. -/
def c1s3 : LRUKReplacer := (Evict c1s2).2

/-- Scenario state after the third eviction. -/
def c1s4 : LRUKReplacer := (Evict c1s3).2

theorem c1s1_reachable : Reachable c1s1 :=
  Reachable.setEvictable 4 true (Reachable.setEvictable 3 true (Reachable.setEvictable 2 true
    (Reachable.setEvictable 1 true (Reachable.recordAccess 4 (Reachable.recordAccess 3
      (Reachable.recordAccess 2 (Reachable.recordAccess 1
        (Reachable.init 7 2 (by omega)))))))))

/-- C1: for every reachable replacer state, a successful `Evict` returns
an evictable frame whose backward k-distance computed at eviction time
(infinite for frames with fewer than k retained accesses) is maximal,
and among frames of equal k-distance the one with the smallest oldest
history entry; in particular with k = 2, after single accesses to frames
1, 2, 3, 4 all made evictable, four successive evictions return
1, 2, 3, 4 in this order. -/
theorem c1_evict_max_backward_k_distance :
    (∀ (s : LRUKReplacer) (v : Int), Reachable s → (Evict s).1 = some v →
      ∃ fr, (v, fr) ∈ s.frames ∧ fr.isEvictable = true ∧
        ∀ q ∈ s.frames, q.2.isEvictable = true →
          backwardKDist s.k s.currentTimestamp q.2 ≤ backwardKDist s.k s.currentTimestamp fr ∧
          (backwardKDist s.k s.currentTimestamp q.2 = backwardKDist s.k s.currentTimestamp fr →
            fr.history.headD 0 ≤ q.2.history.headD 0)) ∧
    ((Evict c1s1).1 = some 1 ∧ (Evict c1s2).1 = some 2 ∧
      (Evict c1s3).1 = some 3 ∧ (Evict c1s4).1 = some 4) := by
  constructor
  · intro s v hreach hev
    have w := reach_wf hreach
    by_cases hz : s.currSize = 0
    · rw [Evict_none_of_zero hz] at hev
      simp at hev
    · by_cases hvid : (scanVictim ⟨-1, 0, s.currentTimestamp⟩ s.frames).victimId = -1
      · rw [Evict_neg hz hvid] at hev
        simp at hev
      · rw [Evict_pos hz hvid] at hev
        have hveq : (scanVictim ⟨-1, 0, s.currentTimestamp⟩ s.frames).victimId = v := by
          simpa using hev
        rcases accOK_of_wf w with ⟨h1, -⟩ | ⟨fr, hm, hfre, -, -, hdom⟩
        · exact absurd (by rw [h1]) hvid
        · rw [hveq] at hm
          refine ⟨fr, hm, hfre, fun q hq hqe => ?_⟩
          exact kd_dominance_to_dist (w.kdCached (v, fr) hm) (w.kdCached q hq) (hdom q hq hqe)
  · exact ⟨by decide, by decide, by decide, by decide⟩

theorem c1_evict_max_backward_k_distance_witness :
    ∃ fr, ((1 : Int), fr) ∈ c1s1.frames ∧ fr.isEvictable = true ∧
      ∀ q ∈ c1s1.frames, q.2.isEvictable = true →
        backwardKDist c1s1.k c1s1.currentTimestamp q.2 ≤
          backwardKDist c1s1.k c1s1.currentTimestamp fr ∧
        (backwardKDist c1s1.k c1s1.currentTimestamp q.2 =
            backwardKDist c1s1.k c1s1.currentTimestamp fr →
          fr.history.headD 0 ≤ q.2.history.headD 0) :=
  c1_evict_max_backward_k_distance.1 c1s1 1 c1s1_reachable (by decide)

/-- State of claim C4's failing input: `k = 2` and two accesses to
frame 0 (timestamps 0 and 1). -/
def c4state : LRUKReplacer := (RecordAccess (RecordAccess (init 5 2) 0).2 0).2

/-- C4: failing-input evaluation.  After the second access the history
of frame 0 is [0, 1], so the spec's backward k-distance (computed when
`current_timestamp` was 1) is `1 - history.front() = 1`, yet the code
caches `current_timestamp - history.back() = 0`: `CalcKDistance`
advances the begin iterator by `k - 1`, reaching the most recent access
instead of the k-th most recent one. -/
theorem c4_cached_distance_eval :
    (lookupFrame 0 c4state.frames).map Frame.kDistance = some 0 ∧
    (lookupFrame 0 c4state.frames).map Frame.history = some [0, 1] ∧
    (1 : Nat) - ((0 : Nat) :: [1]).headD 0 = 1 := by
  refine ⟨by decide, by decide, by decide⟩

/-- C6: in every reachable state `Size` equals the number of stored
frames marked evictable, and a second `SetEvictable(f, true)` leaves the
whole state (hence `Size`) unchanged. -/
theorem c6_size_accounting :
    (∀ s : LRUKReplacer, Reachable s → Size s = countEv s.frames) ∧
    (∀ (s : LRUKReplacer) (f : Int),
      (SetEvictable (SetEvictable s f true).2 f true).2 = (SetEvictable s f true).2) := by
  constructor
  · exact fun s h => (reach_wf h).sizeEq
  · intro s f
    by_cases hthrow : (s.replacerSize : Int) ≤ f
    · simp [SetEvictable, hthrow]
    · rcases hl : lookupFrame f s.frames with _ | fr
      · simp [SetEvictable, hthrow, hl]
      · by_cases hflag : fr.isEvictable ≠ true
        · have h1 : (SetEvictable s f true).2 =
              { s with frames := updateFrames f { fr with isEvictable := true } s.frames,
                       currSize := s.currSize + 1 } := by
            simp [SetEvictable, hthrow, hl, hflag]
          rw [h1]
          have hl2 : lookupFrame f (updateFrames f { fr with isEvictable := true } s.frames) =
              some { fr with isEvictable := true } := lookupFrame_updateFrames_self f _ s.frames
          simp [SetEvictable, hthrow, hl2]
        · have h1 : (SetEvictable s f true).2 = s := by
            simp [SetEvictable, hthrow, hl, hflag]
          rw [h1]
          simp [SetEvictable, hthrow, hl, hflag]

/-- Reachable state used to instantiate claim C6's invariant. -/
def c6wit : LRUKReplacer := (SetEvictable (RecordAccess (init 3 1) 0).2 0 true).2

theorem c6wit_reachable : Reachable c6wit :=
  Reachable.setEvictable 0 true (Reachable.recordAccess 0 (Reachable.init 3 1 (by omega)))

theorem c6_size_accounting_witness : Size c6wit = countEv c6wit.frames :=
  c6_size_accounting.1 c6wit c6wit_reachable

/-- C7: `RecordAccess` and `SetEvictable` throw exactly when the frame
id is at least `replacer_size`, `Remove` throws exactly when the frame
exists and is pinned (and is a no-op on an unknown frame), and every
throwing call leaves the state untouched. -/
theorem c7_error_conditions :
    ∀ (s : LRUKReplacer) (f : Int) (b : Bool),
      ((RecordAccess s f).1 = true ↔ (s.replacerSize : Int) ≤ f) ∧
      ((RecordAccess s f).1 = true → (RecordAccess s f).2 = s) ∧
      ((SetEvictable s f b).1 = true ↔ (s.replacerSize : Int) ≤ f) ∧
      ((SetEvictable s f b).1 = true → (SetEvictable s f b).2 = s) ∧
      ((Remove s f).1 = true ↔
        ∃ fr, lookupFrame f s.frames = some fr ∧ fr.isEvictable = false) ∧
      ((Remove s f).1 = true → (Remove s f).2 = s) ∧
      (lookupFrame f s.frames = none → Remove s f = (false, s)) := by
  intro s f b
  have hrec : ((RecordAccess s f).1 = true ↔ (s.replacerSize : Int) ≤ f) ∧
      ((RecordAccess s f).1 = true → (RecordAccess s f).2 = s) := by
    by_cases hthrow : (s.replacerSize : Int) ≤ f <;> simp [RecordAccess, hthrow]
  have hset : ((SetEvictable s f b).1 = true ↔ (s.replacerSize : Int) ≤ f) ∧
      ((SetEvictable s f b).1 = true → (SetEvictable s f b).2 = s) := by
    by_cases hthrow : (s.replacerSize : Int) ≤ f
    · simp [SetEvictable, hthrow]
    · rcases hl : lookupFrame f s.frames with _ | fr
      · simp [SetEvictable, hthrow, hl]
      · by_cases hflag : fr.isEvictable ≠ b <;> simp [SetEvictable, hthrow, hl, hflag]
  have hrem : ((Remove s f).1 = true ↔
        ∃ fr, lookupFrame f s.frames = some fr ∧ fr.isEvictable = false) ∧
      ((Remove s f).1 = true → (Remove s f).2 = s) ∧
      (lookupFrame f s.frames = none → Remove s f = (false, s)) := by
    rcases hl : lookupFrame f s.frames with _ | fr
    · simp [Remove, hl]
    · by_cases hfr : fr.isEvictable = false <;> simp [Remove, hl, hfr]
  exact ⟨hrec.1, hrec.2, hset.1, hset.2, hrem.1, hrem.2.1, hrem.2.2⟩

theorem c7_error_conditions_witness :
    (RecordAccess (init 2 2) 5).2 = init 2 2 ∧ (SetEvictable (init 2 2) 5 true).2 = init 2 2 :=
  ⟨(c7_error_conditions (init 2 2) 5 true).2.1 (by decide),
   (c7_error_conditions (init 2 2) 5 true).2.2.2.1 (by decide)⟩

/-- Counterexample state of claim C8: frame id -1 is accepted by
`RecordAccess`/`SetEvictable` and collides with the victim sentinel of
`Evict`. -/
def c8cex : LRUKReplacer := (SetEvictable (RecordAccess (init 5 2) (-1)).2 (-1) true).2

theorem c8cex_reachable : Reachable c8cex :=
  Reachable.setEvictable (-1) true (Reachable.recordAccess (-1) (Reachable.init 5 2 (by omega)))

/-- C8 counterexample: a reachable state whose only stored frame has id
-1 and is evictable, so `curr_size = 1` yet `Evict` returns false
(the chosen victim id collides with the `-1` sentinel). -/
theorem c8_counterexample :
    Reachable c8cex ∧ c8cex.currSize = 1 ∧ (Evict c8cex).1 = none :=
  ⟨c8cex_reachable, by decide, by decide⟩

/-- C8 (amended): on reachable states storing no frame under id -1,
`Evict` returns false exactly when `curr_size = 0`, and a successful
`Evict` erases exactly the victim's entry and decreases `curr_size` by
exactly one. -/
theorem c8_evict_failure_amended :
    ∀ s : LRUKReplacer, Reachable s → (∀ p ∈ s.frames, p.1 ≠ -1) →
      (((Evict s).1 = none) ↔ s.currSize = 0) ∧
      ∀ v, (Evict s).1 = some v →
        (∃ fr, (v, fr) ∈ s.frames ∧ fr.isEvictable = true) ∧
        (Evict s).2.frames = eraseKey v s.frames ∧
        (Evict s).2.currSize + 1 = s.currSize := by
  intro s hreach hneg
  have w := reach_wf hreach
  constructor
  · constructor
    · intro hnone
      by_contra hz
      rcases exists_evictable_of_countEv_pos (by rw [← w.sizeEq]; omega) with ⟨p, hp, hpe⟩
      rcases accOK_of_wf w with ⟨-, h2⟩ | ⟨fr, hm, -, -, -, -⟩
      · exact absurd (h2 p hp) (by simp [hpe])
      · have hv : (scanVictim ⟨-1, 0, s.currentTimestamp⟩ s.frames).victimId ≠ -1 :=
          hneg _ hm
        rw [Evict_pos hz hv] at hnone
        simp at hnone
    · intro hz
      rw [Evict_none_of_zero hz]
  · intro v hv
    by_cases hz : s.currSize = 0
    · rw [Evict_none_of_zero hz] at hv
      simp at hv
    · by_cases hvid : (scanVictim ⟨-1, 0, s.currentTimestamp⟩ s.frames).victimId = -1
      · rw [Evict_neg hz hvid] at hv
        simp at hv
      · rw [Evict_pos hz hvid] at hv ⊢
        have hveq : (scanVictim ⟨-1, 0, s.currentTimestamp⟩ s.frames).victimId = v := by
          simpa using hv
        rcases accOK_of_wf w with ⟨h1, -⟩ | ⟨fr, hm, hfre, -, -, -⟩
        · exact absurd (by rw [h1]) hvid
        · rw [hveq] at hm
          exact ⟨⟨fr, hm, hfre⟩, by rw [hveq], by simp; omega⟩

/-- Reachable state used to instantiate the amended claim C8. -/
def c8wit : LRUKReplacer := (SetEvictable (RecordAccess (init 3 1) 0).2 0 true).2

theorem c8wit_reachable : Reachable c8wit :=
  Reachable.setEvictable 0 true (Reachable.recordAccess 0 (Reachable.init 3 1 (by omega)))

theorem c8_evict_failure_amended_witness :
    ((Evict c8wit).1 = none) ↔ c8wit.currSize = 0 :=
  (c8_evict_failure_amended c8wit c8wit_reachable (by decide)).1

/-- C10: negative frame ids pass the range check of `RecordAccess` and
`SetEvictable` (the check bounds the id from above only), and
`RecordAccess` then stores a frame record under the negative id, so
stored ids are not confined to `[0, replacer_size)`. -/
theorem c10_negative_frame_ids :
    ∀ (s : LRUKReplacer) (f : Int) (b : Bool), f < 0 →
      (RecordAccess s f).1 = false ∧ (SetEvictable s f b).1 = false ∧
      lookupFrame f (RecordAccess s f).2.frames = some (bumpFrame s f) := by
  intro s f b hf
  have hnotthrow : ¬(s.replacerSize : Int) ≤ f := by
    have := Int.natCast_nonneg s.replacerSize
    omega
  refine ⟨by simp [RecordAccess, hnotthrow], ?_, ?_⟩
  · rcases hl : lookupFrame f s.frames with _ | fr
    · simp [SetEvictable, hnotthrow, hl]
    · by_cases hflag : fr.isEvictable ≠ b <;> simp [SetEvictable, hnotthrow, hl, hflag]
  · simp only [RecordAccess, if_neg hnotthrow]
    exact lookupFrame_updateFrames_self f _ s.frames

theorem c10_negative_frame_ids_witness :
    (RecordAccess (init 5 2) (-1)).1 = false ∧ (SetEvictable (init 5 2) (-1) true).1 = false ∧
      lookupFrame (-1) (RecordAccess (init 5 2) (-1)).2.frames =
        some (bumpFrame (init 5 2) (-1)) :=
  c10_negative_frame_ids (init 5 2) (-1) true (by omega)

end LRUKReplacer

/-- One bucket of the extendible hash table: the item list, the capacity
`size_` and the local depth `depth_`, mirroring `Bucket` of the source. -/
structure Bucket (K V : Type) where
  list : List (K × V)
  size : Nat
  depth : Nat
deriving DecidableEq

namespace Bucket

variable {K V : Type} [DecidableEq K] [DecidableEq V]

/-- Translation of `Bucket::IsFull` (the item list has reached the
capacity `size_`). -/
def IsFull (b : Bucket K V) : Bool := b.size ≤ b.list.length

/-- Translation of `Bucket::Find`: value of the first pair whose key
matches, `none` when no pair matches. -/
def Find (b : Bucket K V) (key : K) : Option V :=
  (b.list.find? fun p => decide (p.1 = key)).map (·.2)

/-- Translation of `Bucket::Remove`: locate the first pair whose key
matches and call `list_.remove` on it, which deletes every element equal
to that pair; returns whether a pair was found, with the new bucket. -/
def Remove (b : Bucket K V) (key : K) : Bool × Bucket K V :=
  match b.list.find? (fun p => decide (p.1 = key)) with
  | none => (false, b)
  | some p => (true, { b with list := b.list.filter fun q => decide (¬q = p) })

/-- Translation of `Bucket::Insert`: refuse when full, otherwise append
the pair at the back. -/
def Insert (b : Bucket K V) (key : K) (v : V) : Bucket K V :=
  if b.IsFull then b else { b with list := b.list ++ [(key, v)] }

end Bucket

/-- State of the extendible hash table.  Shared bucket ownership is
modelled as an arena: `buckets` holds every bucket object ever created
and `dir` holds arena indices, so that pointer equality of the source
(`dir_[i] == bucket`) becomes index equality and a mutation of a shared
bucket is visible through every directory slot that points to it. -/
structure HashTable (K V : Type) where
  globalDepth : Nat
  dir : List Nat
  buckets : List (Bucket K V)
  numBuckets : Nat
  bucketSize : Nat
deriving DecidableEq

namespace HashTable

variable {K V : Type} [DecidableEq K] [DecidableEq V]

/-- State produced by the constructor `ExtendibleHashTable(bucket_size)`:
one empty bucket of local depth 0.  The initial values `global_depth_ = 0`
and `num_buckets_ = 1` are the member defaults of the class header, which
is not part of the sources; they are modelled from the spec (section 3:
global_depth initially 0, num_buckets counts the distinct buckets). -/
def init (bucketSize : Nat) : HashTable K V :=
  ⟨0, [0], [⟨[], bucketSize, 0⟩], 1, bucketSize⟩

/-- Empty bucket used as the out-of-range default of arena lookups (a
directory entry outside the arena would be undefined behaviour in the
source; the invariant `WF` below rules it out). -/
def dummy : Bucket K V := ⟨[], 0, 0⟩

/-- Bucket object at an arena index. -/
def bucketOf (t : HashTable K V) (e : Nat) : Bucket K V := t.buckets.getD e dummy

/-- Arena index stored in directory slot `i` (`dir_[i]`). -/
def dirAt (t : HashTable K V) (i : Nat) : Nat := t.dir.getD i 0

/-- Translation of `ExtendibleHashTable::IndexOf`:
`hash(key) & ((1 << global_depth_) - 1)`. -/
def IndexOf (hash : K → Nat) (t : HashTable K V) (key : K) : Nat :=
  hash key &&& (2 ^ t.globalDepth - 1)

/-- Bucket currently responsible for a key: `dir_[IndexOf(key)]`. -/
def target (hash : K → Nat) (t : HashTable K V) (key : K) : Bucket K V :=
  t.bucketOf (t.dirAt (IndexOf hash t key))

/-- Translation of `ExtendibleHashTable::Find`. -/
def Find (hash : K → Nat) (t : HashTable K V) (key : K) : Option V :=
  (target hash t key).Find key

/-- Translation of `ExtendibleHashTable::Remove`: delegate to the bucket
at `IndexOf(key)` and store the updated bucket back in the arena. -/
def Remove (hash : K → Nat) (t : HashTable K V) (key : K) : Bool × HashTable K V :=
  let e := t.dirAt (IndexOf hash t key)
  let r := (t.bucketOf e).Remove key
  (r.1, { t with buckets := t.buckets.set e r.2 })

/-- Redistribution loop of a split: every item of the old bucket is
inserted into the first fresh bucket when `hash(key) & mask == 0` and
into the second one otherwise (via `Bucket::Insert`). -/
def redistribute (hash : K → Nat) (mask : Nat) (items : List (K × V))
    (b0 b1 : Bucket K V) : Bucket K V × Bucket K V :=
  match items with
  | [] => (b0, b1)
  | item :: rest =>
    if hash item.1 &&& mask = 0 then redistribute hash mask rest (b0.Insert item.1 item.2) b1
    else redistribute hash mask rest b0 (b1.Insert item.1 item.2)

/-- Rewiring loop of a split: every directory slot holding the old
bucket is repointed to the first fresh bucket when `i & mask == 0` and
to the second one otherwise.  The first argument counts the slot index. -/
def rewire (bIdx n0 n1 mask : Nat) : Nat → List Nat → List Nat
  | _, [] => []
  | i, e :: rest =>
    (if e = bIdx then (if i &&& mask = 0 then n0 else n1) else e) ::
      rewire bIdx n0 n1 mask (i + 1) rest

/-- One iteration of the split loop in `ExtendibleHashTable::Insert`:
double the directory when the full bucket has reached the global depth,
then split the bucket along bit `depth`, redistribute its items and
rewire the directory.  The two fresh buckets are appended at the end of
the arena, so their indices are the old arena length and its successor
(mutating the old bucket in place keeps the arena length unchanged). -/
def splitStep (hash : K → Nat) (t : HashTable K V) (key : K) : HashTable K V :=
  let index := IndexOf hash t key
  let bIdx := t.dirAt index
  let b := t.bucketOf bIdx
  let gd := if b.depth = t.globalDepth then t.globalDepth + 1 else t.globalDepth
  let dir1 := if b.depth = t.globalDepth then t.dir ++ t.dir else t.dir
  let mask := 2 ^ b.depth
  let buckets1 := t.buckets.set bIdx { b with depth := b.depth + 1 }
  let fresh : Bucket K V := ⟨[], t.bucketSize, b.depth + 1⟩
  let pair := redistribute hash mask b.list fresh fresh
  let n0 := t.buckets.length
  let n1 := t.buckets.length + 1
  { globalDepth := gd,
    dir := rewire bIdx n0 n1 mask 0 dir1,
    buckets := buckets1 ++ [pair.1, pair.2],
    numBuckets := t.numBuckets + 1,
    bucketSize := t.bucketSize }

/-- The `while (dir_[IndexOf(key)]->IsFull())` loop of
`ExtendibleHashTable::Insert`, with explicit fuel; `none` means the
fuel ran out before the loop exited. -/
def insertLoop (hash : K → Nat) (key : K) : Nat → HashTable K V → Option (HashTable K V)
  | 0, t => if (target hash t key).IsFull then none else some t
  | n + 1, t =>
    if (target hash t key).IsFull then insertLoop hash key n (splitStep hash t key)
    else some t

/-- Overwrite the value of the first pair whose key matches
(`item.second = value` on the first hit of the scan). -/
def setFirstValue (key : K) (v : V) : List (K × V) → List (K × V)
  | [] => []
  | p :: rest => if p.1 = key then (p.1, v) :: rest else p :: setFirstValue key v rest

/-- The upsert performed after the split loop of
`ExtendibleHashTable::Insert`: overwrite the value when the key is
already in the target bucket, otherwise `Bucket::Insert` the pair. -/
def upsert (hash : K → Nat) (t : HashTable K V) (key : K) (v : V) : HashTable K V :=
  let e := t.dirAt (IndexOf hash t key)
  let b := t.bucketOf e
  if b.list.any fun p => decide (p.1 = key) then
    { t with buckets := t.buckets.set e { b with list := setFirstValue key v b.list } }
  else
    { t with buckets := t.buckets.set e (b.Insert key v) }

/-- Translation of `ExtendibleHashTable::Insert` with explicit fuel for
the split loop: `some` of the post state when the loop exits within the
fuel, `none` otherwise. -/
def Insert (hash : K → Nat) (fuel : Nat) (t : HashTable K V) (key : K) (v : V) :
    Option (HashTable K V) :=
  (insertLoop hash key fuel t).map fun t1 => upsert hash t1 key v

/-- Translation of `ExtendibleHashTable::GetGlobalDepth`. -/
def GetGlobalDepth (t : HashTable K V) : Nat := t.globalDepth

/-- Translation of `ExtendibleHashTable::GetLocalDepth`. -/
def GetLocalDepth (t : HashTable K V) (dirIndex : Nat) : Nat :=
  (t.bucketOf (t.dirAt dirIndex)).depth

/-- Translation of `ExtendibleHashTable::GetNumBuckets`. -/
def GetNumBuckets (t : HashTable K V) : Nat := t.numBuckets

/-- States reachable from a freshly constructed table by terminating
`Insert` calls and by `Remove` calls (`Find` leaves the state
unchanged). -/
inductive Reachable (hash : K → Nat) : HashTable K V → Prop
  | init (bucketSize : Nat) : Reachable hash (init bucketSize)
  | insert {t t'} (key : K) (v : V) (fuel : Nat) :
      Reachable hash t → Insert hash fuel t key v = some t' → Reachable hash t'
  | remove {t} (key : K) : Reachable hash t → Reachable hash (Remove hash t key).2

theorem getD_set_self {α : Type} : ∀ (l : List α) (e : Nat) (b d : α),
    e < l.length → (l.set e b).getD e d = b := by
  intro l
  induction l with
  | nil => intro e b d h; simp at h
  | cons x xs ih =>
    intro e b d h
    cases e with
    | zero => rfl
    | succ e => exact ih e b d (by simpa using h)

theorem getD_set_ne {α : Type} : ∀ (l : List α) (e x : Nat) (b d : α),
    x ≠ e → (l.set e b).getD x d = l.getD x d := by
  intro l
  induction l with
  | nil => intro e x b d _; rfl
  | cons a xs ih =>
    intro e x b d h
    cases e with
    | zero =>
      cases x with
      | zero => exact absurd rfl h
      | succ x => rfl
    | succ e =>
      cases x with
      | zero => rfl
      | succ x => exact ih e x b d (by omega)

theorem getD_append_lt {α : Type} : ∀ (l1 l2 : List α) (j : Nat) (d : α),
    j < l1.length → (l1 ++ l2).getD j d = l1.getD j d := by
  intro l1
  induction l1 with
  | nil => intro l2 j d h; simp at h
  | cons a xs ih =>
    intro l2 j d h
    cases j with
    | zero => rfl
    | succ j => exact ih l2 j d (by simpa using h)

theorem getD_append_ge {α : Type} : ∀ (l1 l2 : List α) (j : Nat) (d : α),
    l1.length ≤ j → (l1 ++ l2).getD j d = l2.getD (j - l1.length) d := by
  intro l1
  induction l1 with
  | nil => intro l2 j d _; rfl
  | cons a xs ih =>
    intro l2 j d h
    cases j with
    | zero => simp at h
    | succ j => simpa using ih l2 j d (by simpa using h)

theorem getD_append_self {l : List Nat} {j : Nat} (hj : j < 2 * l.length) :
    (l ++ l).getD j 0 = l.getD (j % l.length) 0 := by
  have hpos : 0 < l.length := by omega
  by_cases h1 : j < l.length
  · rw [getD_append_lt _ _ _ _ h1, Nat.mod_eq_of_lt h1]
  · rw [getD_append_ge _ _ _ _ (by omega)]
    congr 1
    rw [Nat.mod_eq_sub_mod (by omega)]
    exact (Nat.mod_eq_of_lt (by omega)).symm

theorem length_filter_lt {α : Type} {p : α → Bool} :
    ∀ {l : List α} {x : α}, x ∈ l → p x = false → (l.filter p).length < l.length := by
  intro l
  induction l with
  | nil => intro x h _; simp at h
  | cons a xs ih =>
    intro x h hpx
    rcases List.mem_cons.1 h with h1 | h1
    · subst h1
      rw [List.filter_cons, if_neg (by simp [hpx])]
      simp only [List.length_cons]
      exact Nat.lt_succ_of_le (List.length_filter_le p xs)
    · rw [List.filter_cons]
      by_cases hpa : p a
      · rw [if_pos (by simp [hpa])]
        simpa using ih h1 hpx
      · rw [if_neg (by simp [hpa])]
        exact Nat.lt_succ_of_lt (ih h1 hpx)

theorem and_two_pow_eq_zero_iff {a d : Nat} : a &&& 2 ^ d = 0 ↔ a.testBit d = false := by
  rw [Nat.and_two_pow]
  rcases h : a.testBit d with _ | _
  · simp
  · simp only [Bool.toNat_true, one_mul]
    constructor
    · intro hz
      exact absurd hz (Nat.pos_iff_ne_zero.1 (Nat.pow_pos (by omega)))
    · intro hf
      exact absurd hf (by simp)

theorem mod_pow_mod {a d e : Nat} (h : d ≤ e) : a % 2 ^ e % 2 ^ d = a % 2 ^ d :=
  Nat.mod_mod_of_dvd _ (pow_dvd_pow 2 h)

theorem mod_ne_mono {a b D E : Nat} (hDE : D ≤ E) (h : a % 2 ^ D ≠ b % 2 ^ D) :
    a % 2 ^ E ≠ b % 2 ^ E := by
  intro heq
  apply h
  rw [← mod_pow_mod hDE (a := a), ← mod_pow_mod hDE (a := b), heq]

theorem mod_pow_succ_eq {a b d : Nat} (h1 : a % 2 ^ d = b % 2 ^ d)
    (h2 : a.testBit d = b.testBit d) : a % 2 ^ (d + 1) = b % 2 ^ (d + 1) := by
  have hbit : a / 2 ^ d % 2 = b / 2 ^ d % 2 := by
    have ha := Nat.testBit_to_div_mod (x := a) (i := d)
    have hb := Nat.testBit_to_div_mod (x := b) (i := d)
    rw [h2] at ha
    rw [ha] at hb
    have ha2 : a / 2 ^ d % 2 < 2 := Nat.mod_lt _ (by omega)
    have hb2 : b / 2 ^ d % 2 < 2 := Nat.mod_lt _ (by omega)
    rcases hd : decide (b / 2 ^ d % 2 = 1) with _ | _
    · rw [hd] at hb
      have h3 : ¬a / 2 ^ d % 2 = 1 := of_decide_eq_false hb
      have h4 : ¬b / 2 ^ d % 2 = 1 := of_decide_eq_false hd
      omega
    · rw [hd] at hb
      have h3 : a / 2 ^ d % 2 = 1 := of_decide_eq_true hb
      have h4 : b / 2 ^ d % 2 = 1 := of_decide_eq_true hd
      omega
  have ha : a % 2 ^ (d + 1) = a % 2 ^ d + 2 ^ d * (a / 2 ^ d % 2) := by
    rw [pow_succ]
    exact Nat.mod_mul
  have hb : b % 2 ^ (d + 1) = b % 2 ^ d + 2 ^ d * (b / 2 ^ d % 2) := by
    rw [pow_succ]
    exact Nat.mod_mul
  rw [ha, hb, h1, hbit]

theorem IndexOf_eq_mod (hash : K → Nat) (t : HashTable K V) (key : K) :
    IndexOf hash t key = hash key % 2 ^ t.globalDepth :=
  Nat.and_pow_two_sub_one_eq_mod _ _

theorem IndexOf_lt (hash : K → Nat) (t : HashTable K V) (key : K) :
    IndexOf hash t key < 2 ^ t.globalDepth := by
  rw [IndexOf_eq_mod]
  exact Nat.mod_lt _ (Nat.pow_pos (by omega))

theorem Insert_bucket_depth (b : Bucket K V) (key : K) (v : V) :
    (b.Insert key v).depth = b.depth := by
  unfold Bucket.Insert
  split <;> rfl

theorem Insert_bucket_size (b : Bucket K V) (key : K) (v : V) :
    (b.Insert key v).size = b.size := by
  unfold Bucket.Insert
  split <;> rfl

theorem Insert_bucket_not_full {b : Bucket K V} (h : b.IsFull = false) (key : K) (v : V) :
    b.Insert key v = { b with list := b.list ++ [(key, v)] } := by
  unfold Bucket.Insert
  rw [h]
  rfl

theorem length_setFirstValue (key : K) (v : V) :
    ∀ l : List (K × V), (setFirstValue key v l).length = l.length := by
  intro l
  induction l with
  | nil => rfl
  | cons p rest ih =>
    by_cases hp : p.1 = key
    · simp [setFirstValue, hp]
    · simp [setFirstValue, hp, ih]

theorem mem_setFirstValue (key : K) (v : V) :
    ∀ (l : List (K × V)) (p : K × V), p ∈ setFirstValue key v l →
      ∃ q ∈ l, q.1 = p.1 := by
  intro l
  induction l with
  | nil => intro p h; simp [setFirstValue] at h
  | cons a rest ih =>
    intro p h
    by_cases ha : a.1 = key
    · rw [setFirstValue, if_pos ha] at h
      rcases List.mem_cons.1 h with h1 | h1
      · exact ⟨a, List.mem_cons_self _ _, by rw [h1]⟩
      · exact ⟨p, List.mem_cons_of_mem _ h1, rfl⟩
    · rw [setFirstValue, if_neg ha] at h
      rcases List.mem_cons.1 h with h1 | h1
      · exact ⟨a, List.mem_cons_self _ _, by rw [h1]⟩
      · rcases ih p h1 with ⟨q, hq1, hq2⟩
        exact ⟨q, List.mem_cons_of_mem _ hq1, hq2⟩

theorem find?_setFirstValue (key : K) (v : V) :
    ∀ l : List (K × V), (l.any fun p => decide (p.1 = key)) = true →
      ((setFirstValue key v l).find? fun p => decide (p.1 = key)).map Prod.snd = some v := by
  intro l
  induction l with
  | nil => intro h; simp at h
  | cons a rest ih =>
    intro h
    by_cases ha : a.1 = key
    · rw [setFirstValue, if_pos ha]
      rw [List.find?_cons_of_pos _ (by simpa using ha)]
      rfl
    · rw [setFirstValue, if_neg ha]
      rw [List.find?_cons_of_neg _ (by simpa using ha)]
      apply ih
      rcases List.any_eq_true.1 h with ⟨p, hp, hpk⟩
      rcases List.mem_cons.1 hp with h1 | h1
      · exact absurd (by rw [← h1]; exact of_decide_eq_true hpk) ha
      · exact List.any_eq_true.2 ⟨p, h1, hpk⟩

theorem find?_append_none {α : Type} {p : α → Bool} :
    ∀ {l1 : List α} (l2 : List α), l1.find? p = none → (l1 ++ l2).find? p = l2.find? p := by
  intro l1
  induction l1 with
  | nil => intro l2 _; rfl
  | cons a rest ih =>
    intro l2 h
    by_cases ha : p a
    · rw [List.find?_cons_of_pos _ ha] at h
      simp at h
    · rw [List.find?_cons_of_neg _ ha] at h
      rw [List.cons_append, List.find?_cons_of_neg _ ha]
      exact ih l2 h

theorem redistribute_eq_filter (hash : K → Nat) (mask : Nat) :
    ∀ (items : List (K × V)) (b0 b1 : Bucket K V),
      b0.list.length + (items.filter fun p => decide (hash p.1 &&& mask = 0)).length ≤ b0.size →
      b1.list.length + (items.filter fun p => decide (¬hash p.1 &&& mask = 0)).length ≤
        b1.size →
      redistribute hash mask items b0 b1 =
        ({ b0 with list := b0.list ++ items.filter fun p => decide (hash p.1 &&& mask = 0) },
         { b1 with
            list := b1.list ++ items.filter fun p => decide (¬hash p.1 &&& mask = 0) }) := by
  intro items
  induction items with
  | nil =>
    intro b0 b1 _ _
    simp [redistribute]
  | cons p rest ih =>
    intro b0 b1 h0 h1
    by_cases hp : hash p.1 &&& mask = 0
    · rw [show redistribute hash mask (p :: rest) b0 b1 =
          redistribute hash mask rest (b0.Insert p.1 p.2) b1 from by
        rw [redistribute, if_pos hp]]
      rw [List.filter_cons, if_pos (by simpa using hp)] at h0
      rw [List.filter_cons, if_neg (by simpa using hp)] at h1
      have hnf : b0.IsFull = false := by
        rw [Bucket.IsFull]
        simp only [List.length_cons] at h0
        simp only [decide_eq_false_iff_not, not_le]
        omega
      rw [Insert_bucket_not_full hnf]
      rw [ih { b0 with list := b0.list ++ [(p.1, p.2)] } b1
        (by simp only [List.length_append, List.length_cons, List.length_nil]
            simp only [List.length_cons] at h0
            omega)
        h1]
      simp [List.filter_cons, hp, List.append_assoc]
    · rw [show redistribute hash mask (p :: rest) b0 b1 =
          redistribute hash mask rest b0 (b1.Insert p.1 p.2) from by
        rw [redistribute, if_neg hp]]
      rw [List.filter_cons, if_neg (by simpa using hp)] at h0
      rw [List.filter_cons, if_pos (by simpa using hp)] at h1
      have hnf : b1.IsFull = false := by
        rw [Bucket.IsFull]
        simp only [List.length_cons] at h1
        simp only [decide_eq_false_iff_not, not_le]
        omega
      rw [Insert_bucket_not_full hnf]
      rw [ih b0 { b1 with list := b1.list ++ [(p.1, p.2)] } h0
        (by simp only [List.length_append, List.length_cons, List.length_nil]
            simp only [List.length_cons] at h1
            omega)]
      simp [List.filter_cons, hp, List.append_assoc]

theorem rewire_length (bIdx n0 n1 mask : Nat) :
    ∀ (l : List Nat) (i : Nat), (rewire bIdx n0 n1 mask i l).length = l.length := by
  intro l
  induction l with
  | nil => intro i; rfl
  | cons e rest ih => intro i; simp [rewire, ih]

theorem rewire_getD (bIdx n0 n1 mask : Nat) :
    ∀ (l : List Nat) (i j : Nat), j < l.length →
      (rewire bIdx n0 n1 mask i l).getD j 0 =
        if l.getD j 0 = bIdx then (if (i + j) &&& mask = 0 then n0 else n1)
        else l.getD j 0 := by
  intro l
  induction l with
  | nil => intro i j h; simp at h
  | cons e rest ih =>
    intro i j h
    cases j with
    | zero =>
      simp only [rewire, List.getD_cons_zero, Nat.add_zero]
    | succ j =>
      have hrec := ih (i + 1) j (by simpa using h)
      simp only [rewire, List.getD_cons_succ]
      rw [hrec]
      have harith : i + 1 + j = i + (j + 1) := by omega
      rw [harith]

/-- Invariants holding in every reachable table state: power-of-two
directory sizing, in-range arena indices, local depths bounded by the
global depth, uniform bucket capacity, the bucket-sharing pattern
(slots pointing to one bucket agree modulo 2 to the local depth) and
key residency (items agree with their slots on the low local-depth
hash bits). -/
structure WFT (hash : K → Nat) (t : HashTable K V) : Prop where
  dirLen : t.dir.length = 2 ^ t.globalDepth
  dirIdx : ∀ i, i < t.dir.length → t.dirAt i < t.buckets.length
  depthLe : ∀ i, i < t.dir.length → (t.bucketOf (t.dirAt i)).depth ≤ t.globalDepth
  sizeEq : ∀ i, i < t.dir.length → (t.bucketOf (t.dirAt i)).size = t.bucketSize
  cap : ∀ i, i < t.dir.length → (t.bucketOf (t.dirAt i)).list.length ≤ t.bucketSize
  share : ∀ i, i < t.dir.length → ∀ j, j < t.dir.length → t.dirAt i = t.dirAt j →
    i % 2 ^ (t.bucketOf (t.dirAt i)).depth = j % 2 ^ (t.bucketOf (t.dirAt i)).depth
  agree : ∀ i, i < t.dir.length → ∀ p ∈ (t.bucketOf (t.dirAt i)).list,
    hash p.1 % 2 ^ (t.bucketOf (t.dirAt i)).depth = i % 2 ^ (t.bucketOf (t.dirAt i)).depth

theorem wft_init (hash : K → Nat) (bucketSize : Nat) :
    WFT hash (init bucketSize : HashTable K V) := by
  refine ⟨rfl, ?_, ?_, ?_, ?_, ?_, ?_⟩
  · intro i hi
    simp [init] at hi
    subst hi
    simp [init, dirAt, bucketOf]
  · intro i hi
    simp [init] at hi
    subst hi
    simp [init, dirAt, bucketOf]
  · intro i hi
    simp [init] at hi
    subst hi
    simp [init, dirAt, bucketOf]
  · intro i hi
    simp [init] at hi
    subst hi
    simp [init, dirAt, bucketOf]
  · intro i hi j hj hij
    simp [init] at hi hj
    subst hi
    subst hj
    rfl
  · intro i hi p hp
    simp [init] at hi
    subst hi
    simp [init, dirAt, bucketOf] at hp

theorem target_index_lt {hash : K → Nat} {t : HashTable K V} (w : WFT hash t) (key : K) :
    IndexOf hash t key < t.dir.length := by
  rw [w.dirLen]
  exact IndexOf_lt hash t key

/-- Replacing the bucket at one arena slot preserves the invariants as
long as depth, capacity and the key-residency property of the new
bucket contents are respected. -/
theorem wft_set_bucket {hash : K → Nat} {t : HashTable K V} (w : WFT hash t) {e : Nat}
    {bnew : Bucket K V} (he : e < t.buckets.length)
    (hdep : bnew.depth = (t.bucketOf e).depth)
    (hsz : bnew.size = (t.bucketOf e).size)
    (hcap : bnew.list.length ≤ t.bucketSize)
    (hagree : ∀ i, i < t.dir.length → t.dirAt i = e →
      ∀ p ∈ bnew.list, hash p.1 % 2 ^ bnew.depth = i % 2 ^ bnew.depth) :
    WFT hash { t with buckets := t.buckets.set e bnew } := by
  have hbk : ∀ x : Nat, ({ t with buckets := t.buckets.set e bnew } :
      HashTable K V).bucketOf x = if x = e then bnew else t.bucketOf x := by
    intro x
    by_cases hx : x = e
    · subst hx
      rw [if_pos rfl]
      exact getD_set_self _ _ _ _ he
    · rw [if_neg hx]
      exact getD_set_ne _ _ _ _ _ hx
  have hda : ∀ i : Nat, ({ t with buckets := t.buckets.set e bnew } :
      HashTable K V).dirAt i = t.dirAt i := fun i => rfl
  refine ⟨w.dirLen, ?_, ?_, ?_, ?_, ?_, ?_⟩
  · intro i hi
    rw [hda]
    have := w.dirIdx i hi
    simpa using this
  · intro i hi
    rw [hda, hbk]
    by_cases hx : t.dirAt i = e
    · rw [if_pos hx, hdep, ← hx]
      exact w.depthLe i hi
    · rw [if_neg hx]
      exact w.depthLe i hi
  · intro i hi
    rw [hda, hbk]
    by_cases hx : t.dirAt i = e
    · rw [if_pos hx, hsz, ← hx]
      exact w.sizeEq i hi
    · rw [if_neg hx]
      exact w.sizeEq i hi
  · intro i hi
    rw [hda, hbk]
    by_cases hx : t.dirAt i = e
    · rw [if_pos hx]
      exact hcap
    · rw [if_neg hx]
      exact w.cap i hi
  · intro i hi j hj hij
    simp only [hda] at hij
    simp only [hda, hbk]
    by_cases hx : t.dirAt i = e
    · rw [if_pos hx, hdep, ← hx]
      exact w.share i hi j hj hij
    · rw [if_neg hx]
      exact w.share i hi j hj hij
  · intro i hi p hp
    simp only [hda, hbk] at hp ⊢
    by_cases hx : t.dirAt i = e
    · rw [if_pos hx] at hp ⊢
      exact hagree i hi hx p hp
    · rw [if_neg hx] at hp ⊢
      exact w.agree i hi p hp

/-- Full characterization of one split iteration: the invariants are
preserved, the bucket size parameter is unchanged, and the new bucket
responsible for the key has depth one deeper, capacity `bucket_size`
and exactly the old target's items whose hash agrees with the key's
hash on bit `depth`. -/
theorem splitStep_spec {hash : K → Nat} {t : HashTable K V} (w : WFT hash t) (key : K) :
    WFT hash (splitStep hash t key) ∧
    (splitStep hash t key).bucketSize = t.bucketSize ∧
    (target hash (splitStep hash t key) key).size = t.bucketSize ∧
    (target hash (splitStep hash t key) key).depth = (target hash t key).depth + 1 ∧
    (target hash (splitStep hash t key) key).list =
      (target hash t key).list.filter fun p => decide
        ((hash p.1 &&& 2 ^ (target hash t key).depth = 0) ↔
          (hash key &&& 2 ^ (target hash t key).depth = 0)) := by
  obtain ⟨idx, hIDX⟩ : ∃ x, x = IndexOf hash t key := ⟨_, rfl⟩
  obtain ⟨bIdx, hBIDX⟩ : ∃ x, x = t.dirAt idx := ⟨_, rfl⟩
  obtain ⟨b, hB⟩ : ∃ x, x = t.bucketOf bIdx := ⟨_, rfl⟩
  obtain ⟨d, hD⟩ : ∃ x, x = b.depth := ⟨_, rfl⟩
  have hidxlt : idx < t.dir.length := by rw [hIDX, w.dirLen]; exact IndexOf_lt hash t key
  have hblt : bIdx < t.buckets.length := by rw [hBIDX]; exact w.dirIdx idx hidxlt
  have hdle : d ≤ t.globalDepth := by
    rw [hD, hB, hBIDX]; exact w.depthLe idx hidxlt
  have hsz : b.size = t.bucketSize := by rw [hB, hBIDX]; exact w.sizeEq idx hidxlt
  have hcap : b.list.length ≤ t.bucketSize := by rw [hB, hBIDX]; exact w.cap idx hidxlt
  have etarget : target hash t key = b := by
    show t.bucketOf (t.dirAt (IndexOf hash t key)) = b
    rw [← hIDX, ← hBIDX, ← hB]
  have egd : (splitStep hash t key).globalDepth =
      if d = t.globalDepth then t.globalDepth + 1 else t.globalDepth := by
    rw [hD, hB, hBIDX, hIDX]
    rfl
  have ebs : (splitStep hash t key).bucketSize = t.bucketSize := rfl
  have edir : (splitStep hash t key).dir =
      rewire bIdx t.buckets.length (t.buckets.length + 1) (2 ^ d) 0
        (if d = t.globalDepth then t.dir ++ t.dir else t.dir) := by
    rw [hD, hB, hBIDX, hIDX]
    rfl
  have hred : redistribute hash (2 ^ d) b.list ⟨[], t.bucketSize, d + 1⟩
      ⟨[], t.bucketSize, d + 1⟩ =
      (⟨b.list.filter fun p => decide (hash p.1 &&& 2 ^ d = 0), t.bucketSize, d + 1⟩,
       ⟨b.list.filter fun p => decide (¬hash p.1 &&& 2 ^ d = 0), t.bucketSize, d + 1⟩) := by
    rw [redistribute_eq_filter hash (2 ^ d) b.list _ _
      (by simpa using le_trans (List.length_filter_le _ _) hcap)
      (by simpa using le_trans (List.length_filter_le _ _) hcap)]
    simp
  have ebk0 : (splitStep hash t key).buckets =
      t.buckets.set bIdx { b with depth := d + 1 } ++
        [(redistribute hash (2 ^ d) b.list ⟨[], t.bucketSize, d + 1⟩
            ⟨[], t.bucketSize, d + 1⟩).1,
         (redistribute hash (2 ^ d) b.list ⟨[], t.bucketSize, d + 1⟩
            ⟨[], t.bucketSize, d + 1⟩).2] := by
    rw [hD, hB, hBIDX, hIDX]
    rfl
  have ebk : (splitStep hash t key).buckets =
      t.buckets.set bIdx { b with depth := d + 1 } ++
        [⟨b.list.filter fun p => decide (hash p.1 &&& 2 ^ d = 0), t.bucketSize, d + 1⟩,
         ⟨b.list.filter fun p => decide (¬hash p.1 &&& 2 ^ d = 0), t.bucketSize, d + 1⟩] := by
    rw [ebk0, hred]
  have hgdmono : t.globalDepth ≤ (splitStep hash t key).globalDepth := by
    rw [egd]; split <;> omega
  have hdlt : d < (splitStep hash t key).globalDepth := by
    rw [egd]; split <;> omega
  have hdirlen2 : (splitStep hash t key).dir.length = 2 ^ (splitStep hash t key).globalDepth := by
    rw [edir, rewire_length, egd]
    by_cases hdg : d = t.globalDepth
    · rw [if_pos hdg, if_pos hdg]
      simp only [List.length_append, w.dirLen, pow_succ]
      omega
    · rw [if_neg hdg, if_neg hdg, w.dirLen]
  have hmodlt : ∀ j : Nat, j % 2 ^ t.globalDepth < t.dir.length := by
    intro j
    rw [w.dirLen]
    exact Nat.mod_lt _ (Nat.pow_pos (by omega))
  have hdir1getD : ∀ j, j < (splitStep hash t key).dir.length →
      (if d = t.globalDepth then t.dir ++ t.dir else t.dir).getD j 0 =
        t.dirAt (j % 2 ^ t.globalDepth) := by
    intro j hj
    rw [edir, rewire_length] at hj
    by_cases hdg : d = t.globalDepth
    · rw [if_pos hdg] at hj ⊢
      simp only [List.length_append] at hj
      rw [getD_append_self (by omega)]
      show t.dir.getD (j % t.dir.length) 0 = t.dir.getD (j % 2 ^ t.globalDepth) 0
      rw [w.dirLen]
    · rw [if_neg hdg] at hj ⊢
      rw [Nat.mod_eq_of_lt (by rw [← w.dirLen]; exact hj)]
      rfl
  have hAt : ∀ j, j < (splitStep hash t key).dir.length →
      (splitStep hash t key).dirAt j =
        if t.dirAt (j % 2 ^ t.globalDepth) = bIdx then
          (if j &&& 2 ^ d = 0 then t.buckets.length else t.buckets.length + 1)
        else t.dirAt (j % 2 ^ t.globalDepth) := by
    intro j hj
    have hj2 : j < (if d = t.globalDepth then t.dir ++ t.dir else t.dir).length := by
      rw [edir, rewire_length] at hj
      exact hj
    show (splitStep hash t key).dir.getD j 0 = _
    rw [edir, rewire_getD _ _ _ _ _ 0 j hj2, hdir1getD j hj, Nat.zero_add]
  have hsetlen : (t.buckets.set bIdx { b with depth := d + 1 }).length = t.buckets.length := by
    simp
  have hbklen : (splitStep hash t key).buckets.length = t.buckets.length + 2 := by
    rw [ebk]
    simp
  have hbAt0 : (splitStep hash t key).bucketOf t.buckets.length =
      ⟨b.list.filter fun p => decide (hash p.1 &&& 2 ^ d = 0), t.bucketSize, d + 1⟩ := by
    show (splitStep hash t key).buckets.getD t.buckets.length dummy = _
    rw [ebk, getD_append_ge _ _ _ _ (by rw [hsetlen]), hsetlen]
    simp
  have hbAt1 : (splitStep hash t key).bucketOf (t.buckets.length + 1) =
      ⟨b.list.filter fun p => decide (¬hash p.1 &&& 2 ^ d = 0), t.bucketSize, d + 1⟩ := by
    show (splitStep hash t key).buckets.getD (t.buckets.length + 1) dummy = _
    rw [ebk, getD_append_ge _ _ _ _ (by rw [hsetlen]; omega), hsetlen]
    simp
  have hbAtOld : ∀ e, e < t.buckets.length → e ≠ bIdx →
      (splitStep hash t key).bucketOf e = t.bucketOf e := by
    intro e he hne
    show (splitStep hash t key).buckets.getD e dummy = _
    rw [ebk, getD_append_lt _ _ _ _ (by rw [hsetlen]; exact he)]
    exact getD_set_ne _ _ _ _ _ hne
  have hcases : ∀ j, j < (splitStep hash t key).dir.length →
      (t.dirAt (j % 2 ^ t.globalDepth) = bIdx ∧
        (((splitStep hash t key).dirAt j = t.buckets.length ∧ j &&& 2 ^ d = 0) ∨
         ((splitStep hash t key).dirAt j = t.buckets.length + 1 ∧ ¬j &&& 2 ^ d = 0))) ∨
      (¬t.dirAt (j % 2 ^ t.globalDepth) = bIdx ∧
        (splitStep hash t key).dirAt j = t.dirAt (j % 2 ^ t.globalDepth)) := by
    intro j hj
    by_cases h1 : t.dirAt (j % 2 ^ t.globalDepth) = bIdx
    · refine Or.inl ⟨h1, ?_⟩
      by_cases h2 : j &&& 2 ^ d = 0
      · exact Or.inl ⟨by rw [hAt j hj, if_pos h1, if_pos h2], h2⟩
      · exact Or.inr ⟨by rw [hAt j hj, if_pos h1, if_neg h2], h2⟩
    · exact Or.inr ⟨h1, by rw [hAt j hj, if_neg h1]⟩
  have hshareold : ∀ j1 j2 : Nat, t.dirAt (j1 % 2 ^ t.globalDepth) = bIdx →
      t.dirAt (j2 % 2 ^ t.globalDepth) = bIdx → j1 % 2 ^ d = j2 % 2 ^ d := by
    intro j1 j2 h1 h2
    have hs := w.share (j1 % 2 ^ t.globalDepth) (hmodlt j1) (j2 % 2 ^ t.globalDepth)
      (hmodlt j2) (by rw [h1, h2])
    rw [h1, ← hB, ← hD] at hs
    rw [← mod_pow_mod hdle (a := j1), ← mod_pow_mod hdle (a := j2), hs]
  have hagreeold : ∀ (j : Nat) (p : K × V), t.dirAt (j % 2 ^ t.globalDepth) = bIdx →
      p ∈ b.list → hash p.1 % 2 ^ d = j % 2 ^ d := by
    intro j p h1 hp
    have ha := w.agree (j % 2 ^ t.globalDepth) (hmodlt j) p (by rw [h1, ← hB]; exact hp)
    rw [h1, ← hB, ← hD] at ha
    rw [ha, mod_pow_mod hdle]
  refine ⟨⟨hdirlen2, ?_, ?_, ?_, ?_, ?_, ?_⟩, ebs, ?_⟩
  · intro j hj
    rcases hcases j hj with ⟨h1, ⟨h2, -⟩ | ⟨h2, -⟩⟩ | ⟨h1, h2⟩
    · rw [h2, hbklen]; omega
    · rw [h2, hbklen]; omega
    · rw [h2, hbklen]
      have := w.dirIdx _ (hmodlt j)
      omega
  · intro j hj
    rcases hcases j hj with ⟨h1, ⟨h2, -⟩ | ⟨h2, -⟩⟩ | ⟨h1, h2⟩
    · rw [h2, hbAt0]; exact hdlt
    · rw [h2, hbAt1]; exact hdlt
    · rw [h2, hbAtOld _ (w.dirIdx _ (hmodlt j)) h1]
      exact le_trans (w.depthLe _ (hmodlt j)) hgdmono
  · intro j hj
    rcases hcases j hj with ⟨h1, ⟨h2, -⟩ | ⟨h2, -⟩⟩ | ⟨h1, h2⟩
    · rw [h2, hbAt0, ebs]
    · rw [h2, hbAt1, ebs]
    · rw [h2, hbAtOld _ (w.dirIdx _ (hmodlt j)) h1, ebs]
      exact w.sizeEq _ (hmodlt j)
  · intro j hj
    rcases hcases j hj with ⟨h1, ⟨h2, -⟩ | ⟨h2, -⟩⟩ | ⟨h1, h2⟩
    · rw [h2, hbAt0, ebs]
      exact le_trans (List.length_filter_le _ _) hcap
    · rw [h2, hbAt1, ebs]
      exact le_trans (List.length_filter_le _ _) hcap
    · rw [h2, hbAtOld _ (w.dirIdx _ (hmodlt j)) h1, ebs]
      exact w.cap _ (hmodlt j)
  · intro j1 hj1 j2 hj2 heq
    rcases hcases j1 hj1 with ⟨h1a, ⟨h2a, h3a⟩ | ⟨h2a, h3a⟩⟩ | ⟨h1a, h2a⟩ <;>
      rcases hcases j2 hj2 with ⟨h1b, ⟨h2b, h3b⟩ | ⟨h2b, h3b⟩⟩ | ⟨h1b, h2b⟩
    · rw [h2a, hbAt0]
      have hmods := hshareold j1 j2 h1a h1b
      have hbits : j1.testBit d = j2.testBit d := by
        rw [and_two_pow_eq_zero_iff.1 h3a, and_two_pow_eq_zero_iff.1 h3b]
      exact mod_pow_succ_eq hmods hbits
    · rw [h2a, h2b] at heq; omega
    · rw [h2a, h2b] at heq
      have := w.dirIdx _ (hmodlt j2)
      omega
    · rw [h2a, h2b] at heq; omega
    · rw [h2a, hbAt1]
      have hmods := hshareold j1 j2 h1a h1b
      have hbits : j1.testBit d = j2.testBit d := by
        have hb1 : j1.testBit d = true := by
          rcases hx : j1.testBit d with _ | _
          · exact absurd (and_two_pow_eq_zero_iff.2 hx) h3a
          · rfl
        have hb2 : j2.testBit d = true := by
          rcases hx : j2.testBit d with _ | _
          · exact absurd (and_two_pow_eq_zero_iff.2 hx) h3b
          · rfl
        rw [hb1, hb2]
      exact mod_pow_succ_eq hmods hbits
    · rw [h2a, h2b] at heq
      have := w.dirIdx _ (hmodlt j2)
      omega
    · rw [h2a, h2b] at heq
      have := w.dirIdx _ (hmodlt j1)
      omega
    · rw [h2a, h2b] at heq
      have := w.dirIdx _ (hmodlt j1)
      omega
    · rw [h2a, h2b] at heq
      rw [h2a, hbAtOld _ (w.dirIdx _ (hmodlt j1)) h1a]
      have hs := w.share _ (hmodlt j1) _ (hmodlt j2) heq
      have hdle2 : (t.bucketOf (t.dirAt (j1 % 2 ^ t.globalDepth))).depth ≤ t.globalDepth :=
        w.depthLe _ (hmodlt j1)
      rw [← mod_pow_mod hdle2 (a := j1), ← mod_pow_mod hdle2 (a := j2), hs]
  · intro j hj p hp
    rcases hcases j hj with ⟨h1, ⟨h2, h3⟩ | ⟨h2, h3⟩⟩ | ⟨h1, h2⟩
    · rw [h2, hbAt0] at hp ⊢
      simp only [List.mem_filter, decide_eq_true_eq] at hp
      have hmods := hagreeold j p h1 hp.1
      have hbits : (hash p.1).testBit d = j.testBit d := by
        rw [and_two_pow_eq_zero_iff.1 hp.2, and_two_pow_eq_zero_iff.1 h3]
      exact mod_pow_succ_eq hmods hbits
    · rw [h2, hbAt1] at hp ⊢
      simp only [List.mem_filter, decide_eq_true_eq] at hp
      have hmods := hagreeold j p h1 hp.1
      have hbits : (hash p.1).testBit d = j.testBit d := by
        have hb1 : (hash p.1).testBit d = true := by
          rcases hx : (hash p.1).testBit d with _ | _
          · exact absurd (and_two_pow_eq_zero_iff.2 hx) hp.2
          · rfl
        have hb2 : j.testBit d = true := by
          rcases hx : j.testBit d with _ | _
          · exact absurd (and_two_pow_eq_zero_iff.2 hx) h3
          · rfl
        rw [hb1, hb2]
      exact mod_pow_succ_eq hmods hbits
    · rw [h2, hbAtOld _ (w.dirIdx _ (hmodlt j)) h1] at hp ⊢
      have ha := w.agree _ (hmodlt j) p hp
      have hdle2 : (t.bucketOf (t.dirAt (j % 2 ^ t.globalDepth))).depth ≤ t.globalDepth :=
        w.depthLe _ (hmodlt j)
      rw [ha, mod_pow_mod hdle2]
  · have hidx2lt : IndexOf hash (splitStep hash t key) key <
        (splitStep hash t key).dir.length := by
      rw [hdirlen2]
      exact IndexOf_lt hash _ key
    have hidx2m : IndexOf hash (splitStep hash t key) key % 2 ^ t.globalDepth = idx := by
      rw [IndexOf_eq_mod, mod_pow_mod hgdmono, ← IndexOf_eq_mod, hIDX]
    have hbit2 : (IndexOf hash (splitStep hash t key) key).testBit d = (hash key).testBit d := by
      rw [IndexOf_eq_mod, Nat.testBit_mod_two_pow]
      simp [hdlt]
    have htargetAt : (splitStep hash t key).dirAt (IndexOf hash (splitStep hash t key) key) =
        if IndexOf hash (splitStep hash t key) key &&& 2 ^ d = 0 then t.buckets.length
        else t.buckets.length + 1 := by
      rw [hAt _ hidx2lt, hidx2m, if_pos hBIDX.symm]
    have etarget2 : target hash (splitStep hash t key) key =
        (splitStep hash t key).bucketOf
          ((splitStep hash t key).dirAt (IndexOf hash (splitStep hash t key) key)) := rfl
    by_cases hkb : hash key &&& 2 ^ d = 0
    · have hib : IndexOf hash (splitStep hash t key) key &&& 2 ^ d = 0 := by
        rw [and_two_pow_eq_zero_iff, hbit2, ← and_two_pow_eq_zero_iff]
        exact hkb
      rw [etarget2, htargetAt, if_pos hib, hbAt0, etarget]
      refine ⟨rfl, by rw [hD], ?_⟩
      show _ = b.list.filter fun p => decide
        ((hash p.1 &&& 2 ^ b.depth = 0) ↔ (hash key &&& 2 ^ b.depth = 0))
      rw [← hD]
      apply List.filter_congr
      intro p _
      simp [hkb]
    · have hib : ¬IndexOf hash (splitStep hash t key) key &&& 2 ^ d = 0 := by
        rw [and_two_pow_eq_zero_iff, hbit2, ← and_two_pow_eq_zero_iff]
        exact hkb
      rw [etarget2, htargetAt, if_neg hib, hbAt1, etarget]
      refine ⟨rfl, by rw [hD], ?_⟩
      show _ = b.list.filter fun p => decide
        ((hash p.1 &&& 2 ^ b.depth = 0) ↔ (hash key &&& 2 ^ b.depth = 0))
      rw [← hD]
      apply List.filter_congr
      intro p _
      simp [hkb]

theorem Remove_bucket_depth (b : Bucket K V) (key : K) : (b.Remove key).2.depth = b.depth := by
  unfold Bucket.Remove
  rcases hf : b.list.find? fun p => decide (p.1 = key) with _ | p <;> rw [hf]

theorem Remove_bucket_size (b : Bucket K V) (key : K) : (b.Remove key).2.size = b.size := by
  unfold Bucket.Remove
  rcases hf : b.list.find? fun p => decide (p.1 = key) with _ | p <;> rw [hf]

theorem Remove_bucket_mem {b : Bucket K V} {key : K} {p : K × V}
    (h : p ∈ (b.Remove key).2.list) : p ∈ b.list := by
  unfold Bucket.Remove at h
  rcases hf : b.list.find? fun p => decide (p.1 = key) with _ | q <;> rw [hf] at h
  · exact h
  · simp only [List.mem_filter] at h
    exact h.1

theorem Remove_bucket_length {b : Bucket K V} (key : K) :
    (b.Remove key).2.list.length ≤ b.list.length := by
  unfold Bucket.Remove
  rcases hf : b.list.find? fun p => decide (p.1 = key) with _ | q
  · rw [hf]
  · rw [hf]
    exact List.length_filter_le _ _

theorem wft_upsert {hash : K → Nat} {t : HashTable K V} (w : WFT hash t) (key : K) (v : V) :
    WFT hash (upsert hash t key v) := by
  have hidxlt : IndexOf hash t key < t.dir.length := target_index_lt w key
  have he : t.dirAt (IndexOf hash t key) < t.buckets.length := w.dirIdx _ hidxlt
  have hdle : (t.bucketOf (t.dirAt (IndexOf hash t key))).depth ≤ t.globalDepth :=
    w.depthLe _ hidxlt
  have hkeyagree : ∀ i, i < t.dir.length → t.dirAt i = t.dirAt (IndexOf hash t key) →
      hash key % 2 ^ (t.bucketOf (t.dirAt (IndexOf hash t key))).depth =
        i % 2 ^ (t.bucketOf (t.dirAt (IndexOf hash t key))).depth := by
    obtain ⟨D, hDdef⟩ : ∃ x, x = (t.bucketOf (t.dirAt (IndexOf hash t key))).depth := ⟨_, rfl⟩
    rw [← hDdef]
    intro i hi hie
    have hs := w.share i hi _ hidxlt hie
    rw [hie, ← hDdef] at hs
    have hk : IndexOf hash t key % 2 ^ D = hash key % 2 ^ D := by
      rw [IndexOf_eq_mod, mod_pow_mod (by rw [hDdef]; exact hdle)]
    rw [← hk, ← hs]
  unfold upsert
  by_cases hany :
      ((t.bucketOf (t.dirAt (IndexOf hash t key))).list.any fun p => decide (p.1 = key)) = true
  · rw [if_pos hany]
    refine wft_set_bucket w he rfl rfl ?_ ?_
    · show (setFirstValue key v (t.bucketOf (t.dirAt (IndexOf hash t key))).list).length ≤
        t.bucketSize
      rw [length_setFirstValue]
      exact w.cap _ hidxlt
    · intro i hi hie p hp
      rcases mem_setFirstValue key v _ p hp with ⟨q, hq, hq1⟩
      have hag := w.agree i hi q (by rw [hie]; exact hq)
      rw [hie] at hag
      rw [hq1] at hag
      exact hag
  · rw [if_neg hany]
    refine wft_set_bucket w he (Insert_bucket_depth _ _ _) (Insert_bucket_size _ _ _) ?_ ?_
    · unfold Bucket.Insert
      by_cases hf : (t.bucketOf (t.dirAt (IndexOf hash t key))).IsFull = true
      · rw [if_pos hf]
        exact w.cap _ hidxlt
      · rw [if_neg hf]
        have hc := w.cap _ hidxlt
        have hnf : ¬((t.bucketOf (t.dirAt (IndexOf hash t key))).size ≤
            (t.bucketOf (t.dirAt (IndexOf hash t key))).list.length) := by
          simpa [Bucket.IsFull] using hf
        rw [w.sizeEq _ hidxlt] at hnf
        simp only [List.length_append, List.length_cons, List.length_nil]
        omega
    · intro i hi hie p hp
      rw [Insert_bucket_depth]
      unfold Bucket.Insert at hp
      by_cases hf : (t.bucketOf (t.dirAt (IndexOf hash t key))).IsFull = true
      · rw [if_pos hf] at hp
        have hag := w.agree i hi p (by rw [hie]; exact hp)
        rw [hie] at hag
        exact hag
      · rw [if_neg hf] at hp
        simp only [List.mem_append, List.mem_singleton] at hp
        rcases hp with hp | hp
        · have hag := w.agree i hi p (by rw [hie]; exact hp)
          rw [hie] at hag
          exact hag
        · rw [hp]
          exact hkeyagree i hi hie

theorem wft_removeT {hash : K → Nat} {t : HashTable K V} (w : WFT hash t) (key : K) :
    WFT hash (Remove hash t key).2 := by
  have hidxlt : IndexOf hash t key < t.dir.length := target_index_lt w key
  have he : t.dirAt (IndexOf hash t key) < t.buckets.length := w.dirIdx _ hidxlt
  have hstate : (Remove hash t key).2 =
      { t with buckets :=
          (t.buckets.set (t.dirAt (IndexOf hash t key))
            ((t.bucketOf (t.dirAt (IndexOf hash t key))).Remove key).2) } := rfl
  rw [hstate]
  refine wft_set_bucket w he (Remove_bucket_depth _ _) (Remove_bucket_size _ _) ?_ ?_
  · exact le_trans (Remove_bucket_length key) (w.cap _ hidxlt)
  · intro i hi hie p hp
    rw [Remove_bucket_depth]
    have hag := w.agree i hi p (by rw [hie]; exact Remove_bucket_mem hp)
    rw [hie] at hag
    exact hag

theorem insertLoop_some {hash : K → Nat} {key : K} :
    ∀ (n : Nat) (t t1 : HashTable K V), WFT hash t → insertLoop hash key n t = some t1 →
      WFT hash t1 ∧ (target hash t1 key).IsFull = false := by
  intro n
  induction n with
  | zero =>
    intro t t1 w h
    unfold insertLoop at h
    by_cases hf : (target hash t key).IsFull = true
    · rw [if_pos hf] at h
      simp at h
    · rw [if_neg hf] at h
      simp only [Option.some.injEq] at h
      subst h
      exact ⟨w, by simpa using hf⟩
  | succ n ih =>
    intro t t1 w h
    unfold insertLoop at h
    by_cases hf : (target hash t key).IsFull = true
    · rw [if_pos hf] at h
      exact ih (splitStep hash t key) t1 (splitStep_spec w key).1 h
    · rw [if_neg hf] at h
      simp only [Option.some.injEq] at h
      subst h
      exact ⟨w, by simpa using hf⟩

theorem reach_wft {hash : K → Nat} {t : HashTable K V} (h : Reachable hash t) :
    WFT hash t := by
  induction h with
  | init bs => exact wft_init hash bs
  | @insert t0 t2 key v fuel hr heq ih =>
    rcases hloop : insertLoop hash key fuel t0 with _ | t1
    · unfold Insert at heq
      rw [hloop] at heq
      simp at heq
    · unfold Insert at heq
      rw [hloop] at heq
      simp only [Option.map_some', Option.some.injEq] at heq
      rw [← heq]
      exact wft_upsert (insertLoop_some fuel t0 t1 ih hloop).1 key v
  | remove key hr ih => exact wft_removeT ih key

theorem Find_upsert {hash : K → Nat} {t : HashTable K V} (w : WFT hash t) (key : K) (v : V)
    (hnf : (target hash t key).IsFull = false) :
    Find hash (upsert hash t key v) key = some v := by
  have hidxlt : IndexOf hash t key < t.dir.length := target_index_lt w key
  have he : t.dirAt (IndexOf hash t key) < t.buckets.length := w.dirIdx _ hidxlt
  unfold upsert
  by_cases hany :
      ((t.bucketOf (t.dirAt (IndexOf hash t key))).list.any fun p => decide (p.1 = key)) = true
  · rw [if_pos hany]
    show ((t.buckets.set (t.dirAt (IndexOf hash t key))
        { t.bucketOf (t.dirAt (IndexOf hash t key)) with
            list := setFirstValue key v (t.bucketOf (t.dirAt (IndexOf hash t key))).list }).getD
        (t.dirAt (IndexOf hash t key)) dummy).Find key = some v
    rw [getD_set_self _ _ _ _ he]
    show ((setFirstValue key v (t.bucketOf (t.dirAt (IndexOf hash t key))).list).find? fun p =>
        decide (p.1 = key)).map (fun p => p.2) = some v
    exact find?_setFirstValue key v _ hany
  · rw [if_neg hany]
    have hnotfull : (t.bucketOf (t.dirAt (IndexOf hash t key))).IsFull = false := hnf
    show ((t.buckets.set (t.dirAt (IndexOf hash t key))
        ((t.bucketOf (t.dirAt (IndexOf hash t key))).Insert key v)).getD
        (t.dirAt (IndexOf hash t key)) dummy).Find key = some v
    rw [getD_set_self _ _ _ _ he, Insert_bucket_not_full hnotfull]
    show (((t.bucketOf (t.dirAt (IndexOf hash t key))).list ++ [(key, v)]).find? fun p =>
        decide (p.1 = key)).map (fun p => p.2) = some v
    have hnone : ((t.bucketOf (t.dirAt (IndexOf hash t key))).list.find? fun p =>
        decide (p.1 = key)) = none := by
      rw [List.find?_eq_none]
      intro x hx
      simp only [decide_eq_true_eq]
      intro hxk
      exact absurd (List.any_eq_true.2 ⟨x, hx, by simp [hxk]⟩) hany
    rw [find?_append_none _ hnone]
    simp

/-- C2: whenever `Insert(k, v)` terminates on a reachable table state,
an immediate `Find(k)` returns `v`. -/
theorem c2_insert_find {K V : Type} [DecidableEq K] [DecidableEq V] (hash : K → Nat)
    (t : HashTable K V) (key : K) (v : V) (fuel : Nat) (t2 : HashTable K V)
    (hr : Reachable hash t) (hins : Insert hash fuel t key v = some t2) :
    Find hash t2 key = some v := by
  have w := reach_wft hr
  rcases hloop : insertLoop hash key fuel t with _ | t1
  · unfold Insert at hins
    rw [hloop] at hins
    simp at hins
  · unfold Insert at hins
    rw [hloop] at hins
    simp only [Option.map_some', Option.some.injEq] at hins
    rcases insertLoop_some fuel t t1 w hloop with ⟨w1, hnf⟩
    rw [← hins]
    exact Find_upsert w1 key v hnf

/-- C5: for every reachable table state the directory length is exactly
2 to the global depth, and every directory slot's local depth is at
most the global depth. -/
theorem c5_directory_invariants {K V : Type} [DecidableEq K] [DecidableEq V]
    (hash : K → Nat) (t : HashTable K V) (hr : Reachable hash t) :
    t.dir.length = 2 ^ GetGlobalDepth t ∧
    ∀ i, i < t.dir.length → GetLocalDepth t i ≤ GetGlobalDepth t := by
  have w := reach_wft hr
  exact ⟨w.dirLen, fun i hi => w.depthLe i hi⟩

theorem insertLoop_of_disagree {K V : Type} [DecidableEq K] [DecidableEq V]
    (hash : K → Nat) (key : K) :
    ∀ (m : Nat) (t : HashTable K V), WFT hash t → 1 ≤ t.bucketSize →
      (∃ z ∈ (target hash t key).list,
        hash z.1 % 2 ^ ((target hash t key).depth + m) ≠
          hash key % 2 ^ ((target hash t key).depth + m)) →
      ∃ n t1, insertLoop hash key n t = some t1 := by
  intro m
  induction m with
  | zero =>
    intro t w hbs hex
    obtain ⟨z, hz, hne⟩ := hex
    exfalso
    apply hne
    have hidxlt := target_index_lt w key
    have hag := w.agree (IndexOf hash t key) hidxlt z hz
    have hdle := w.depthLe (IndexOf hash t key) hidxlt
    have hkey : hash key % 2 ^ (target hash t key).depth =
        IndexOf hash t key % 2 ^ (target hash t key).depth := by
      obtain ⟨D, hD⟩ : ∃ x, x = (target hash t key).depth := ⟨_, rfl⟩
      rw [← hD, IndexOf_eq_mod, mod_pow_mod (by rw [hD]; exact hdle)]
    rw [Nat.add_zero, hkey]
    exact hag
  | succ m ih =>
    intro t w hbs hex
    obtain ⟨z, hz, hne⟩ := hex
    by_cases hful : (target hash t key).IsFull = true
    · obtain ⟨wspec, hbssp, hsz2, hdep2, hlist2⟩ := splitStep_spec w key
      by_cases hbit : (hash z.1 &&& 2 ^ (target hash t key).depth = 0) ↔
          (hash key &&& 2 ^ (target hash t key).depth = 0)
      · have hz2 : z ∈ (target hash (splitStep hash t key) key).list := by
          rw [hlist2]
          exact List.mem_filter.2 ⟨hz, by simp only [decide_eq_true_eq]; exact hbit⟩
        have hne2 : hash z.1 % 2 ^ ((target hash (splitStep hash t key) key).depth + m) ≠
            hash key % 2 ^ ((target hash (splitStep hash t key) key).depth + m) := by
          rw [hdep2]
          have harr : (target hash t key).depth + 1 + m =
              (target hash t key).depth + (m + 1) := by omega
          rw [harr]
          exact hne
        obtain ⟨n, t1, hn⟩ := ih (splitStep hash t key) wspec (by rw [hbssp]; exact hbs)
          ⟨z, hz2, hne2⟩
        refine ⟨n + 1, t1, ?_⟩
        show (if (target hash t key).IsFull = true then
            insertLoop hash key n (splitStep hash t key) else some t) = some t1
        rw [if_pos hful]
        exact hn
      · have hc : (target hash t key).list.length ≤ t.bucketSize :=
          w.cap (IndexOf hash t key) (target_index_lt w key)
        have hlen : (target hash (splitStep hash t key) key).list.length < t.bucketSize := by
          rw [hlist2]
          have hf2 : (decide ((hash z.1 &&& 2 ^ (target hash t key).depth = 0) ↔
              (hash key &&& 2 ^ (target hash t key).depth = 0))) = false := by
            simp only [decide_eq_false_iff_not]
            exact hbit
          have hflt := @length_filter_lt (K × V)
            (fun p => decide ((hash p.1 &&& 2 ^ (target hash t key).depth = 0) ↔
              (hash key &&& 2 ^ (target hash t key).depth = 0)))
            (target hash t key).list z hz hf2
          omega
        have hnotful2 : ¬((target hash (splitStep hash t key) key).IsFull = true) := by
          simp only [Bucket.IsFull, hsz2, decide_eq_true_eq, not_le]
          exact hlen
        refine ⟨1, splitStep hash t key, ?_⟩
        show (if (target hash t key).IsFull = true then
            insertLoop hash key 0 (splitStep hash t key) else some t) = some (splitStep hash t key)
        rw [if_pos hful]
        show (if (target hash (splitStep hash t key) key).IsFull = true then none
            else some (splitStep hash t key)) = some (splitStep hash t key)
        rw [if_neg hnotful2]
    · refine ⟨0, t, ?_⟩
      show (if (target hash t key).IsFull = true then none else some t) = some t
      rw [if_neg hful]

/-- C9: on every reachable table state with `bucket_size >= 1`, `Insert`
terminates (the split loop exits within some finite fuel) provided the
hash is non-pathological for this key: the keys of the target bucket
together with the inserted key do not all agree on arbitrarily many
low-order hash bits. -/
theorem c9_insert_terminates {K V : Type} [DecidableEq K] [DecidableEq V] (hash : K → Nat)
    (t : HashTable K V) (key : K) (v : V) (hr : Reachable hash t) (hbs : 1 ≤ t.bucketSize)
    (hnp : ∃ D, ∃ x ∈ key :: (target hash t key).list.map Prod.fst,
      ∃ y ∈ key :: (target hash t key).list.map Prod.fst,
        hash x % 2 ^ D ≠ hash y % 2 ^ D) :
    ∃ n t2, Insert hash n t key v = some t2 := by
  have w := reach_wft hr
  obtain ⟨D, x, hx, y, hy, hxy⟩ := hnp
  have hzex : ∃ z ∈ (target hash t key).list, hash z.1 % 2 ^ D ≠ hash key % 2 ^ D := by
    rcases List.mem_cons.1 hx with hx1 | hx1 <;> rcases List.mem_cons.1 hy with hy1 | hy1
    · subst hx1
      subst hy1
      exact absurd rfl hxy
    · subst hx1
      rcases List.mem_map.1 hy1 with ⟨q, hq, hq1⟩
      exact ⟨q, hq, by rw [hq1]; exact fun h => hxy h.symm⟩
    · subst hy1
      rcases List.mem_map.1 hx1 with ⟨q, hq, hq1⟩
      exact ⟨q, hq, by rw [hq1]; exact hxy⟩
    · rcases List.mem_map.1 hx1 with ⟨qx, hqx, hqx1⟩
      rcases List.mem_map.1 hy1 with ⟨qy, hqy, hqy1⟩
      by_cases hxk : hash x % 2 ^ D = hash key % 2 ^ D
      · refine ⟨qy, hqy, ?_⟩
        rw [hqy1]
        intro h
        exact hxy (hxk.trans h.symm)
      · refine ⟨qx, hqx, ?_⟩
        rw [hqx1]
        exact hxk
  obtain ⟨z, hz, hzne⟩ := hzex
  have hm : hash z.1 % 2 ^ ((target hash t key).depth + (D - (target hash t key).depth)) ≠
      hash key % 2 ^ ((target hash t key).depth + (D - (target hash t key).depth)) :=
    mod_ne_mono (by omega) hzne
  obtain ⟨n, t1, hn⟩ := insertLoop_of_disagree hash key (D - (target hash t key).depth) t w hbs
    ⟨z, hz, hm⟩
  refine ⟨n, upsert hash t1 key v, ?_⟩
  unfold Insert
  rw [hn]
  rfl

/-- Identity hash on natural-number keys, the behaviour of libstdc++'s
std::hash on int, used for the concrete integer instantiations. -/
def idHash : Nat → Nat := fun n => n

/-- Empty table of claim C3's failing input (bucket_size 2). -/
def c3t0 : HashTable Nat Nat := init 2

/-- Table after `Insert(0, 10)`. -/
def c3t1 : HashTable Nat Nat := (Insert idHash 2 c3t0 0 10).getD c3t0

/-- Table after `Insert(0, 10); Insert(1, 20)`: one full bucket holding
keys 0 and 1 at global depth 0. -/
def c3t2 : HashTable Nat Nat := (Insert idHash 2 c3t1 1 20).getD c3t0

/-- C3: failing-input evaluation.  With bucket_size 2 and identity hash,
after `Insert(0,10); Insert(1,20)` the table has one bucket, global
depth 0 and a directory of length 1, the target bucket of key 0 is full
and already contains key 0 — yet re-inserting key 0 splits: the second
insert of the key raises the bucket count to 2, the global depth to 1
and the directory length to 2, because the split loop checks only
fullness and not key presence (spec section 4.1 step 1 requires both). -/
theorem c3_upsert_split_eval :
    (Insert idHash 2 c3t0 0 10).isSome = true ∧
    (Insert idHash 2 c3t1 1 20).isSome = true ∧
    GetNumBuckets c3t2 = 1 ∧ GetGlobalDepth c3t2 = 0 ∧ c3t2.dir.length = 1 ∧
    (target idHash c3t2 0).IsFull = true ∧
    ((target idHash c3t2 0).list.any fun p => decide (p.1 = 0)) = true ∧
    (Insert idHash 2 c3t2 0 30).map GetNumBuckets = some 2 ∧
    (Insert idHash 2 c3t2 0 30).map GetGlobalDepth = some 1 ∧
    (Insert idHash 2 c3t2 0 30).map (fun t => t.dir.length) = some 2 ∧
    (Insert idHash 2 c3t2 0 30).map (fun t => Find idHash t 0) = some (some 30) := by
  decide

/-- Empty table used to instantiate claim C2. -/
def c2t0 : HashTable Nat Nat := init 2

theorem c2_insert_find_witness :
    Find idHash ((Insert idHash 1 c2t0 5 77).getD c2t0) 5 = some 77 :=
  c2_insert_find idHash c2t0 5 77 1 ((Insert idHash 1 c2t0 5 77).getD c2t0)
    (Reachable.init 2) (by decide)

/-- Reachable table used to instantiate claim C5. -/
def c5t0 : HashTable Nat Nat := init 2

/-- Table after one insert, used to instantiate claim C5. -/
def c5t1 : HashTable Nat Nat := (Insert idHash 1 c5t0 3 9).getD c5t0

theorem c5_directory_invariants_witness :
    c5t1.dir.length = 2 ^ GetGlobalDepth c5t1 ∧
    ∀ i, i < c5t1.dir.length → GetLocalDepth c5t1 i ≤ GetGlobalDepth c5t1 :=
  c5_directory_invariants idHash c5t1
    (Reachable.insert 3 9 1 (Reachable.init 2) (by decide))

/-- Table of claim C9's witness: bucket_size 1 with the single key 0
filling its bucket. -/
def c9t0 : HashTable Nat Nat := init 1

/-- Table after `Insert(0, 10)` with bucket_size 1. -/
def c9t1 : HashTable Nat Nat := (Insert idHash 1 c9t0 0 10).getD c9t0

theorem c9_insert_terminates_witness :
    ∃ n t2, Insert idHash n c9t1 1 99 = some t2 :=
  c9_insert_terminates idHash c9t1 1 99
    (Reachable.insert 0 10 1 (Reachable.init 1) (by decide))
    (by decide)
    ⟨1, 1, by decide, 0, by decide, by decide⟩

end HashTable

end BusTub
